import Mathlib

/-!
Verification of the `topo_sort` crate (repository `depends`, file `src/lib.rs`):
a cycle-safe topological sort over a dependency store, implemented with a
degree-counting (Kahn) traversal.

Modelling choices (shallow embedding):
* `TopoSort<T>`'s `node_depends : HashMap<T, HashSet<T>>` is modelled as an
  association list `Store T = List (T × List T)`.  The list order stands for
  the (unspecified) hash-map iteration order; dependency `HashSet`s are lists
  whose well-formed instances have no duplicates (`WF`).
* The internal map `Nodes<T> = HashMap<*const T, (HashSet<*const T>, u32)>`
  is an association list `List (T × (List T × Nat))`.  The `*const T` keys
  always point at canonical store keys (the code resolves every raw pointer
  through a lookup table built from `node_depends.keys()`), so they are
  modelled by the node values themselves; the pointer-identity lookup table
  becomes a membership test against the store's key list.
* The `no_edges : Vec<*const T>` stack is a list whose HEAD is the END of the
  Rust vector, so `Vec::push` is `cons` and `Vec::pop` takes the head.
* The iterator is a state-passing step function; a full drive of the iterator
  is a fuel-indexed run (`runInner`), with fuel `store.length + 1` shown
  sufficient.
-/

namespace TopoSortModel

variable {T V : Type} [DecidableEq T]

/-- The error value returned when a cycle is detected (`struct CycleError`). -/
inductive CycleError : Type
  | mk
deriving DecidableEq

/-- A dependency store: the `node_depends` map of `TopoSort<T>`, as an
association list from each node to its declared dependency set. -/
abbrev Store (T : Type) : Type := List (T × List T)

/-- Keys of an association list. -/
def akeys (m : List (T × V)) : List T := m.map (·.1)

/-- Lookup, i.e. `HashMap::get`: first value stored under a key, if any. -/
def alookup : List (T × V) → T → Option V
  | [], _ => none
  | (k, v) :: rest, key => if k = key then some v else alookup rest key

/-- Entry insertion, i.e. `HashMap::entry(k).or_insert_with(d)` without the
mutation: keep the map
unchanged if the key is present, otherwise append a fresh entry. -/
def aensure (m : List (T × V)) (k : T) (d : V) : List (T × V) :=
  match alookup m k with
  | some _ => m
  | none => m ++ [(k, d)]

/-- Mutate the value stored under a key in place (models mutating through an
occupied `HashMap` entry). -/
def aupdate (m : List (T × V)) (k : T) (f : V → V) : List (T × V) :=
  m.map (fun p => if p.1 = k then (p.1, f p.2) else p)

/-- Removal, i.e. `HashMap::remove`: drop every entry stored under the key. -/
def aremove (m : List (T × V)) (k : T) : List (T × V) :=
  m.filter (fun p => decide (¬ p.1 = k))

/-- The internal graph map: `type Nodes<T> = HashMap<*const T, (HashSet<*const T>, u32)>`,
i.e. dependency ↦ (dependents, remaining edge count). -/
abbrev Nodes (T : Type) : Type := List (T × (List T × Nat))

/-- The fresh entry `new_entry_fn = || (HashSet::new(), 0)`. -/
def newEntry : List T × Nat := ([], 0)

/-- Keys of the store (`node_depends.keys()`). -/
def skeys (store : Store T) : List T := store.map (·.1)

/-- The body of the inner dependency loop of `InnerIter::make_nodes`: skip a
self reference, skip a dependency that is not a store key (the `lookup` table
built from `node_depends.keys()` resolves exactly the keys), otherwise bump the
dependent's edge count and record the dependent in the dependency's set. -/
def processDep (store : Store T) (nodes : Nodes T) (dependent dependency : T) :
    Nodes T :=
  if dependent ≠ dependency then
    if dependency ∈ skeys store then
      let nodes1 := aupdate (aensure nodes dependent newEntry) dependent
        (fun e => (e.1, e.2 + 1))
      aupdate (aensure nodes1 dependency newEntry) dependency
        (fun e => (e.1.insert dependent, e.2))
    else nodes
  else nodes

/-- One iteration of the outer loop of `make_nodes`: ensure the dependent is a
graph node, then process each of its dependencies. -/
def processEntry (store : Store T) (nodes : Nodes T) (entry : T × List T) :
    Nodes T :=
  entry.2.foldl (fun ns dep => processDep store ns entry.1 dep)
    (aensure nodes entry.1 newEntry)

/-- Graph construction, `InnerIter::make_nodes`. -/
def makeNodes (store : Store T) : Nodes T :=
  store.foldl (processEntry store) []

/-- Initial ready queue, `InnerIter::make_no_edges`: the keys whose edge count
is zero. -/
def makeNoEdges (nodes : Nodes T) : List T :=
  (nodes.filter (fun p => decide (p.2.2 = 0))).map (·.1)

/-- The state of `InnerIter<T>`. -/
structure IterState (T : Type) : Type where
  nodes : Nodes T
  noEdges : List T
deriving DecidableEq

/-- Initial iterator state, `InnerIter::new`. -/
def initState (store : Store T) : IterState T :=
  let nodes := makeNodes store
  { nodes := nodes, noEdges := makeNoEdges nodes }

/-- The body of the dependent-decrement loop of `InnerIter::next`: decrement
the dependent's edge count and push it onto the collected ready list when it
reaches zero.  A dependent absent from the map would be a panic in the source
(`expect`); the model skips it, and the traversal invariant shows it never
happens. -/
def pdStep (acc : Nodes T × List T) (dependent : T) : Nodes T × List T :=
  match alookup acc.1 dependent with
  | some e =>
    let nodes1 := aupdate acc.1 dependent (fun e => (e.1, e.2 - 1))
    if e.2 - 1 = 0 then (nodes1, dependent :: acc.2) else (nodes1, acc.2)
  | none => acc

/-- The dependent-decrement loop of `InnerIter::next`: decrement each
dependent's edge count and collect (by pushing) those that reach zero. -/
def processDependents (nodes : Nodes T) (dependents : List T) :
    Nodes T × List T :=
  dependents.foldl pdStep (nodes, [])

/-- Step function `InnerIter::next`: pop a ready node, remove it from the
graph, decrement
its dependents (queueing those that reach zero) and emit it; with an empty
queue, finish if the graph is empty and otherwise clear it and emit the one
cycle error.  The popped node is always in the map (the source `expect`s it);
if it were not, the model emits it without touching the map. -/
def innerNext (s : IterState T) : Option (Except CycleError T) × IterState T :=
  match s.noEdges with
  | node :: rest =>
    match alookup s.nodes node with
    | some e =>
      let nodes1 := aremove s.nodes node
      let p := processDependents nodes1 e.1
      (some (.ok node), { nodes := p.1, noEdges := p.2 ++ rest })
    | none => (some (.ok node), { nodes := s.nodes, noEdges := rest })
  | [] =>
    if s.nodes.isEmpty then (none, s)
    else (some (.error CycleError.mk), { nodes := [], noEdges := [] })

/-- Drive the iterator for at most `fuel` steps, collecting every item it
yields; stops early at the first `None`. -/
def runInner : Nat → IterState T → List (Except CycleError T)
  | 0, _ => []
  | fuel + 1, s =>
    match innerNext s with
    | (none, _) => []
    | (some r, s') => r :: runInner fuel s'

/-- The items yielded by a full drive of the iterator built from a store:
fuel `store.length + 1` is enough (shown below) for the run to reach `None`. -/
def toposortList (store : Store T) : List (Except CycleError T) :=
  runInner (store.length + 1) (initState store)

/-- Size estimate, `InnerIter::size_hint`. -/
def sizeHint (s : IterState T) : Nat × Option Nat :=
  (s.nodes.length, some s.nodes.length)

/-- The successfully emitted nodes of an output sequence. -/
def okNodes (rs : List (Except CycleError T)) : List T :=
  rs.filterMap (fun r => match r with | .ok n => some n | .error _ => none)

/-- The dependency set stored for a node, or empty when absent. -/
def storeDeps (store : Store T) (n : T) : List T :=
  (alookup store n).getD []

/-- The dependencies of `n` that actually constrain the traversal: its stored
dependencies minus self references and minus values that are not store keys. -/
def cleanDeps (store : Store T) (n : T) : List T :=
  (storeDeps store n).filter (fun d => decide (d ≠ n ∧ d ∈ skeys store))

/-- The dependency edge relation: `DepEdge store d n` when `d` is a retained
(non-self, non-dangling) dependency of `n`, i.e. `d` must precede `n`. -/
def DepEdge (store : Store T) (d n : T) : Prop := d ∈ cleanDeps store n

/-- The dependency graph (after dropping self edges and dangling references)
has a directed cycle. -/
def HasCycle (store : Store T) : Prop :=
  ∃ n, Relation.TransGen (DepEdge store) n n

/-- Well-formed store: unique keys and no duplicates inside a dependency set —
automatic for every store built through the `TopoSort` API, whose map has
unique keys and whose dependency collections are `HashSet`s. -/
def WF (store : Store T) : Prop :=
  (skeys store).Nodup ∧ ∀ p ∈ store, (p.2 : List T).Nodup

/-- Node `d` occurs strictly before (some occurrence of) `n` in the list. -/
def strictlyBefore (l : List T) (d n : T) : Prop :=
  ∃ pre post, l = pre ++ n :: post ∧ d ∈ pre

/-- A topologically valid order for the store: every retained dependency of
every listed node appears strictly earlier in the list. -/
def validOrder (store : Store T) (l : List T) : Prop :=
  ∀ pre n post, l = pre ++ n :: post → ∀ d ∈ cleanDeps store n, d ∈ pre

/-- Description `DescribesMap dom cnt dps nodes`: the association list `nodes`
has exactly
the keys satisfying `dom`; the entry of `n` stores edge count `cnt n` and a
duplicate-free dependents set whose members are exactly `dps · n`. -/
def DescribesMap (dom : T → Prop) (cnt : T → Nat) (dps : T → T → Prop)
    (nodes : Nodes T) : Prop :=
  (∀ n, (alookup nodes n).isSome ↔ dom n) ∧
  (∀ n e, alookup nodes n = some e →
    e.2 = cnt n ∧ e.1.Nodup ∧ ∀ m, m ∈ e.1 ↔ dps m n) ∧
  (akeys nodes).Nodup

/-- The dependencies of the entry `(k, ds)` that `make_nodes` retains:
non-self and present as a store key. -/
def validDeps (store : Store T) (k : T) (ds : List T) : List T :=
  ds.filter (fun d => decide (k ≠ d ∧ d ∈ skeys store))

/-- The retained dependencies of `n` read from the prefix `done` of the store
(membership filtered against the full store's keys). -/
def cleanDepsIn (store done : Store T) (n : T) : List T :=
  ((alookup done n).getD []).filter (fun d => decide (d ≠ n ∧ d ∈ skeys store))

/-- Reversed-order validity: in the newest-first emission list `em`, every
retained dependency of a member occurs strictly later in the list (i.e. was
emitted strictly earlier in time). -/
def ValidRev (store : Store T) (em : List T) : Prop :=
  ∀ pre n post, em = pre ++ n :: post → ∀ d ∈ cleanDeps store n, d ∈ post

/-- The invariant tying an `InnerIter` state to the store it was built from
and the (newest-first) list of nodes already emitted. -/
structure Inv (store : Store T) (emitted : List T) (s : IterState T) : Prop where
  desc : DescribesMap (fun n => n ∈ skeys store ∧ n ∉ emitted)
    (fun n => ((cleanDeps store n).filter (fun d => decide (d ∉ emitted))).length)
    (fun m n => m ∈ skeys store ∧ n ∈ cleanDeps store m)
    s.nodes
  ready : ∀ n, n ∈ s.noEdges ↔ ∃ deps, alookup s.nodes n = some (deps, 0)
  rnodup : s.noEdges.Nodup
  esub : ∀ n ∈ emitted, n ∈ skeys store
  enodup : emitted.Nodup
  evalid : ValidRev store emitted

/-- Node `n` is safe when no node on a directed cycle reaches it: none of its
transitive dependencies (including itself) lies on a cycle. -/
def Safe (store : Store T) (n : T) : Prop :=
  ∀ m, Relation.ReflTransGen (DepEdge store) m n →
    ¬ Relation.TransGen (DepEdge store) m m

/-- Rust `collect::<Result<Vec<_>, E>>()`: gather the payloads, stopping at
the first error, which becomes the failure of the whole operation. -/
def collectOk : List (Except CycleError T) → Except CycleError (List T)
  | [] => Except.ok []
  | Except.ok x :: rest => (collectOk rest).map (fun l => x :: l)
  | Except.error e :: _ => Except.error e

/-- Eager collection `TopoSort::try_vec`: collect the node-only iterator. -/
def try_vec (store : Store T) : Except CycleError (List T) :=
  collectOk (toposortList store)

/-- Eager collection `TopoSort::try_owned_vec`: the same sequence with every
node cloned
(`result.map(|node| node.clone())`); cloning a value is the identity here. -/
def try_owned_vec (store : Store T) : Except CycleError (List T) :=
  collectOk ((toposortList store).map (fun r => r.map (fun node => node)))

/-- The state of the consuming iterator `IntoTopoSortIter<T>`. -/
structure IntoIterState (T : Type) : Type where
  inner : IterState T
  node_depends : Store T

/-- Consuming iterator construction, `IntoTopoSortIter::new` via
`TopoSort::into_iter`. -/
def intoIter (store : Store T) : IntoIterState T :=
  { inner := initState store, node_depends := store }

/-- Consuming step `IntoTopoSortIter::next`: on success, `remove_entry` the
node from the
owned map and yield the owned pair.  The entry is always present (the source
`expect`s it); if it were not, the model yields nothing. -/
def intoNext (s : IntoIterState T) :
    Option (Except CycleError (T × List T)) × IntoIterState T :=
  match innerNext s.inner with
  | (none, i) => (none, { inner := i, node_depends := s.node_depends })
  | (some (Except.error e), i) =>
    (some (Except.error e), { inner := i, node_depends := s.node_depends })
  | (some (Except.ok n), i) =>
    match alookup s.node_depends n with
    | some deps =>
      (some (Except.ok (n, deps)),
        { inner := i, node_depends := aremove s.node_depends n })
    | none => (none, { inner := i, node_depends := s.node_depends })

/-- Drive the consuming iterator for at most `fuel` steps, collecting the
yielded items and returning the final state. -/
def runInto : Nat → IntoIterState T →
    List (Except CycleError (T × List T)) × IntoIterState T
  | 0, s => ([], s)
  | fuel + 1, s =>
    match intoNext s with
    | (none, s') => ([], s')
    | (some r, s') =>
      let t := runInto fuel s'
      (r :: t.1, t.2)

/-- The state of the borrowed iterator `TopoSortIter<'d, T>`: the inner
iterator plus the borrowed (immutable) store reference. -/
structure TopoSortIterState (T : Type) : Type where
  inner : IterState T
  node_depends : Store T

/-- Borrowed iterator construction, `TopoSortIter::new` via `TopoSort::iter`. -/
def topoSortIter (store : Store T) : TopoSortIterState T :=
  { inner := initState store, node_depends := store }

/-- Borrowed step `TopoSortIter::next`: pair each emitted node with its stored
dependency
set read from the borrowed store (`self.node_depends[&*node]`). -/
def topoSortIterNext (s : TopoSortIterState T) :
    Option (Except CycleError (T × List T)) × TopoSortIterState T :=
  match innerNext s.inner with
  | (none, i) => (none, { inner := i, node_depends := s.node_depends })
  | (some (Except.error e), i) =>
    (some (Except.error e), { inner := i, node_depends := s.node_depends })
  | (some (Except.ok n), i) =>
    (some (Except.ok (n, storeDeps s.node_depends n)),
      { inner := i, node_depends := s.node_depends })

/-- Node-only step `TopoSortNodeIter::next` (via `TopoSort::nodes`): drop the
dependency set
from the pair. -/
def topoSortNodeIterNext (s : TopoSortIterState T) :
    Option (Except CycleError T) × TopoSortIterState T :=
  match topoSortIterNext s with
  | (none, s') => (none, s')
  | (some r, s') => (some (r.map (fun p => p.1)), s')

/-- Iterate `TopoSortIter::next` `k` times. -/
def tsIterate : Nat → TopoSortIterState T → TopoSortIterState T
  | 0, s => s
  | k + 1, s => tsIterate k (topoSortIterNext s).2

/-- Iterate `InnerIter::next` `k` times. -/
def stateAfter : Nat → IterState T → IterState T
  | 0, s => s
  | k + 1, s => stateAfter k (innerNext s).2

/-- Drop self references and dangling references from every dependency set. -/
def scrub (store : Store T) : Store T :=
  store.map (fun p => (p.1, p.2.filter (fun d => decide (d ≠ p.1 ∧ d ∈ skeys store))))

/-- Equality of iterator items is decidable (the source derives `PartialEq`
for `CycleError` and requires `Eq` on nodes). -/
def exceptDecEq : (a b : Except CycleError T) → Decidable (a = b)
  | Except.error e1, Except.error e2 =>
    match decEq e1 e2 with
    | isTrue h => isTrue (by rw [h])
    | isFalse h => isFalse (fun hh => h (by injection hh))
  | Except.error _, Except.ok _ => isFalse (fun hh => Except.noConfusion hh)
  | Except.ok _, Except.error _ => isFalse (fun hh => Except.noConfusion hh)
  | Except.ok a, Except.ok b =>
    match decEq a b with
    | isTrue h => isTrue (by rw [h])
    | isFalse h => isFalse (fun hh => h (by injection hh))

instance : DecidableEq (Except CycleError T) := exceptDecEq

/-! ### Scrub invariance and misc helpers -/

instance (store : Store T) : Decidable (WF store) := by
  unfold WF
  infer_instance

instance (store : Store T) (d n : T) : Decidable (DepEdge store d n) := by
  unfold DepEdge
  infer_instance

/-- The store of the crate's worked example, nodes renamed
A=0, B=1, C=2, D=3, E=4. -/
def exStore : Store Nat := [(2, [0, 1]), (4, [1, 2]), (0, []), (3, [0, 2, 4]), (1, [0])]

/-- The store of the `test_termination` test: 1 and 2 form a cycle while 3
and 4 do not. -/
def exCycStore : Store Nat := [(1, [2]), (2, [1]), (3, [4]), (4, [])]

/-- A store where node 5 lies on no cycle but depends on a node of one. -/
def exDepCycStore : Store Nat := [(1, [2]), (2, [1]), (5, [1])]

/-- A store whose only node depends on itself. -/
def exSelfStore : Store Nat := [(0, [0])]

/-! ### Association-list lemmas -/

@[simp] theorem alookup_nil (key : T) : alookup ([] : List (T × V)) key = none := rfl

theorem alookup_cons (k : T) (v : V) (m : List (T × V)) (key : T) :
    alookup ((k, v) :: m) key = if k = key then some v else alookup m key := rfl

theorem alookup_append (m m' : List (T × V)) (key : T) :
    alookup (m ++ m') key = ((alookup m key).map some).getD (alookup m' key) := by
  induction m with
  | nil => simp
  | cons p rest ih =>
    obtain ⟨k, v⟩ := p
    by_cases h : k = key <;> simp [alookup_cons, h, ih]

theorem aupdate_cons (p : T × V) (m : List (T × V)) (k : T) (f : V → V) :
    aupdate (p :: m) k f = (if p.1 = k then (p.1, f p.2) else p) :: aupdate m k f := rfl

theorem aremove_cons (p : T × V) (m : List (T × V)) (k : T) :
    aremove (p :: m) k = if p.1 = k then aremove m k else p :: aremove m k := by
  by_cases h : p.1 = k <;> simp [aremove, List.filter_cons, h]

theorem alookup_isSome_iff (m : List (T × V)) (key : T) :
    (alookup m key).isSome ↔ key ∈ akeys m := by
  induction m with
  | nil => simp [akeys]
  | cons p rest ih =>
    obtain ⟨k, v⟩ := p
    rw [alookup_cons]
    by_cases h : k = key
    · subst h
      simp [akeys]
    · rw [if_neg h]
      simp only [akeys, List.map_cons, List.mem_cons]
      rw [show (rest.map (·.1) : List T) = akeys rest from rfl, ← ih]
      constructor
      · exact Or.inr
      · rintro (h' | h')
        · exact absurd h'.symm h
        · exact h'

theorem alookup_eq_none_iff (m : List (T × V)) (key : T) :
    alookup m key = none ↔ key ∉ akeys m := by
  rw [← alookup_isSome_iff, Option.isSome_iff_ne_none]
  tauto

theorem alookup_mem (m : List (T × V)) (key : T) (v : V)
    (h : alookup m key = some v) : (key, v) ∈ m := by
  induction m with
  | nil => simp at h
  | cons p rest ih =>
    obtain ⟨k, w⟩ := p
    rw [alookup_cons] at h
    by_cases hk : k = key
    · subst hk
      rw [if_pos rfl] at h
      injection h with h
      subst h
      exact List.mem_cons_self _ _
    · rw [if_neg hk] at h
      exact List.mem_cons_of_mem _ (ih h)

theorem mem_alookup_of_nodup (m : List (T × V)) (key : T) (v : V)
    (hnd : (akeys m).Nodup) (h : (key, v) ∈ m) : alookup m key = some v := by
  induction m with
  | nil => simp at h
  | cons p rest ih =>
    obtain ⟨k, w⟩ := p
    simp only [akeys, List.map_cons, List.nodup_cons] at hnd
    rcases List.mem_cons.1 h with h | h
    · obtain ⟨h1, h2⟩ := Prod.mk.injEq .. ▸ h
      injection h with h'
      rw [alookup_cons]
      simp_all
    · have hk : k ≠ key := by
        intro hk
        exact hnd.1 (hk ▸ (List.mem_map.2 ⟨(key, v), h, by simp [hk]⟩))
      rw [alookup_cons, if_neg hk]
      exact ih hnd.2 h

theorem alookup_aensure_self (m : List (T × V)) (k : T) (d : V) :
    alookup (aensure m k d) k = some ((alookup m k).getD d) := by
  unfold aensure
  cases h : alookup m k with
  | some v => simp [h]
  | none => simp [alookup_append, h, alookup_cons]

theorem alookup_aensure_ne (m : List (T × V)) (k : T) (d : V) (key : T)
    (hne : key ≠ k) : alookup (aensure m k d) key = alookup m key := by
  unfold aensure
  cases h : alookup m k with
  | some v => rfl
  | none =>
    rw [alookup_append]
    cases h' : alookup m key <;> simp [alookup_cons, Ne.symm hne, h']

theorem alookup_aupdate_self (m : List (T × V)) (k : T) (f : V → V) :
    alookup (aupdate m k f) k = (alookup m k).map f := by
  induction m with
  | nil => rfl
  | cons p rest ih =>
    obtain ⟨k', v⟩ := p
    rw [aupdate_cons]
    by_cases h : k' = k
    · subst h
      rw [if_pos rfl, alookup_cons, alookup_cons, if_pos rfl, if_pos rfl]
      rfl
    · rw [if_neg h, alookup_cons, alookup_cons, if_neg h, if_neg h]
      exact ih

theorem alookup_aupdate_ne (m : List (T × V)) (k : T) (f : V → V) (key : T)
    (hne : key ≠ k) : alookup (aupdate m k f) key = alookup m key := by
  induction m with
  | nil => rfl
  | cons p rest ih =>
    obtain ⟨k', v⟩ := p
    rw [aupdate_cons]
    by_cases h : k' = k
    · subst h
      rw [if_pos rfl, alookup_cons, alookup_cons, if_neg (Ne.symm hne),
        if_neg (Ne.symm hne)]
      exact ih
    · rw [if_neg h, alookup_cons, alookup_cons]
      by_cases h' : k' = key
      · rw [if_pos h', if_pos h']
      · rw [if_neg h', if_neg h']
        exact ih

theorem alookup_aremove_self (m : List (T × V)) (k : T) :
    alookup (aremove m k) k = none := by
  induction m with
  | nil => rfl
  | cons p rest ih =>
    obtain ⟨k', v⟩ := p
    rw [aremove_cons]
    by_cases h : (k', v).1 = k
    · rw [if_pos h]
      exact ih
    · rw [if_neg h, alookup_cons, if_neg h]
      exact ih

theorem alookup_aremove_ne (m : List (T × V)) (k : T) (key : T) (hne : key ≠ k) :
    alookup (aremove m k) key = alookup m key := by
  induction m with
  | nil => rfl
  | cons p rest ih =>
    obtain ⟨k', v⟩ := p
    rw [aremove_cons]
    by_cases h : (k', v).1 = k
    · rw [if_pos h, alookup_cons]
      have : ¬ k' = key := by
        intro h'
        exact hne (h' ▸ h)
      rw [if_neg this]
      exact ih
    · rw [if_neg h, alookup_cons, alookup_cons]
      by_cases h' : k' = key
      · rw [if_pos h', if_pos h']
      · rw [if_neg h', if_neg h']
        exact ih

theorem akeys_aupdate (m : List (T × V)) (k : T) (f : V → V) :
    akeys (aupdate m k f) = akeys m := by
  induction m with
  | nil => rfl
  | cons p rest ih =>
    obtain ⟨k', v⟩ := p
    rw [aupdate_cons]
    by_cases h : k' = k
    · subst h
      simp only [if_pos rfl, akeys, List.map_cons]
      rw [show (aupdate rest k' f).map (·.1) = akeys (aupdate rest k' f) from rfl, ih]
      rfl
    · simp only [if_neg h, akeys, List.map_cons]
      rw [show (aupdate rest k f).map (·.1) = akeys (aupdate rest k f) from rfl, ih]
      rfl

theorem akeys_aensure (m : List (T × V)) (k : T) (d : V) :
    akeys (aensure m k d) = if (alookup m k).isSome then akeys m else akeys m ++ [k] := by
  unfold aensure
  cases h : alookup m k <;> simp [h, akeys]

theorem akeys_aremove (m : List (T × V)) (k : T) :
    akeys (aremove m k) = (akeys m).filter (fun x => !decide (x = k)) := by
  induction m with
  | nil => rfl
  | cons p rest ih =>
    obtain ⟨k', v⟩ := p
    rw [aremove_cons]
    by_cases h : (k', v).1 = k
    · rw [if_pos h, ih]
      have hk : k' = k := h
      simp [akeys, List.filter_cons, hk]
    · rw [if_neg h]
      have hk : ¬ k' = k := h
      simp only [akeys, List.map_cons, List.filter_cons]
      rw [show (aremove rest k).map (·.1) = akeys (aremove rest k) from rfl, ih]
      simp only [hk, decide_False, Bool.not_false, if_pos]
      rfl

theorem aremove_eq_self (m : List (T × V)) (k : T) (h : k ∉ akeys m) :
    aremove m k = m := by
  induction m with
  | nil => rfl
  | cons p rest ih =>
    simp only [akeys, List.map_cons, List.mem_cons] at h
    push_neg at h
    rw [aremove_cons, if_neg fun hh => h.1 hh.symm]
    rw [ih h.2]

theorem nodup_akeys_aensure (m : List (T × V)) (k : T) (d : V)
    (h : (akeys m).Nodup) : (akeys (aensure m k d)).Nodup := by
  rw [akeys_aensure]
  split
  · exact h
  · next hn =>
    rw [List.nodup_append]
    refine ⟨h, List.nodup_singleton k, ?_⟩
    intro x hx hx'
    rw [List.mem_singleton] at hx'
    subst hx'
    rw [← alookup_isSome_iff] at hx
    simp_all

theorem nodup_akeys_aremove (m : List (T × V)) (k : T)
    (h : (akeys m).Nodup) : (akeys (aremove m k)).Nodup := by
  rw [akeys_aremove]
  exact h.filter _

theorem length_aupdate (m : List (T × V)) (k : T) (f : V → V) :
    (aupdate m k f).length = m.length := by
  simp [aupdate]

theorem length_aremove_of_mem (m : List (T × V)) (k : T)
    (hnd : (akeys m).Nodup) (hk : k ∈ akeys m) :
    (aremove m k).length + 1 = m.length := by
  induction m with
  | nil => simp [akeys] at hk
  | cons p rest ih =>
    obtain ⟨k', v⟩ := p
    simp only [akeys, List.map_cons, List.nodup_cons] at hnd
    rw [aremove_cons]
    by_cases h : (k', v).1 = k
    · rw [if_pos h]
      have hnotin : k ∉ akeys rest := by
        intro hmem
        apply hnd.1
        have hk' : k' = k := h
        rw [hk']
        exact hmem
      rw [aremove_eq_self rest k hnotin]
      simp
    · rw [if_neg h]
      have hk' : k ∈ akeys rest := by
        simp only [akeys, List.map_cons, List.mem_cons] at hk
        rcases hk with hk | hk
        · exact absurd hk.symm h
        · exact hk
      have := ih hnd.2 hk'
      simp only [List.length_cons]
      omega

theorem DescribesMap.congr {dom dom' : T → Prop} {cnt cnt' : T → Nat}
    {dps dps' : T → T → Prop} {nodes : Nodes T}
    (h : DescribesMap dom cnt dps nodes)
    (hdom : ∀ n, dom n ↔ dom' n)
    (hcnt : ∀ n, dom n → cnt n = cnt' n)
    (hdps : ∀ m n, dom n → (dps m n ↔ dps' m n)) :
    DescribesMap dom' cnt' dps' nodes := by
  obtain ⟨h1, h2, h3⟩ := h
  refine ⟨fun n => (h1 n).trans (hdom n), fun n e he => ?_, h3⟩
  have hd : dom n := (h1 n).1 (he ▸ rfl)
  obtain ⟨hc, hnd, hm⟩ := h2 n e he
  exact ⟨hc.trans (hcnt n hd), hnd, fun m => (hm m).trans (hdps m n hd)⟩

theorem describes_aensure {dom : T → Prop} {cnt : T → Nat} {dps : T → T → Prop}
    {nodes : Nodes T} (h : DescribesMap dom cnt dps nodes) (k : T)
    (hcnt0 : ¬ dom k → cnt k = 0) (hdps0 : ∀ m, ¬ dom k → ¬ dps m k) :
    DescribesMap (fun n => dom n ∨ n = k) cnt dps (aensure nodes k newEntry) := by
  obtain ⟨h1, h2, h3⟩ := h
  by_cases hk : (alookup nodes k).isSome
  · have heq : aensure nodes k newEntry = nodes := by
      unfold aensure
      cases hl : alookup nodes k with
      | some v => rfl
      | none => rw [hl] at hk; simp at hk
    rw [heq]
    have hdk : dom k := (h1 k).1 hk
    refine ⟨fun n => (h1 n).trans ⟨Or.inl, ?_⟩, h2, h3⟩
    rintro (hd | rfl)
    · exact hd
    · exact hdk
  · have hnone : alookup nodes k = none := by
      cases hl : alookup nodes k with
      | some v => rw [hl] at hk; simp at hk
      | none => rfl
    have hdk : ¬ dom k := fun hd => hk ((h1 k).2 hd)
    refine ⟨fun n => ?_, fun n e he => ?_, ?_⟩
    · by_cases hn : n = k
      · subst hn
        rw [alookup_aensure_self, hnone]
        simp
      · rw [alookup_aensure_ne _ _ _ _ hn, h1 n]
        constructor
        · exact Or.inl
        · rintro (hd | rfl)
          · exact hd
          · exact absurd rfl hn
    · by_cases hn : n = k
      · subst hn
        rw [alookup_aensure_self, hnone] at he
        injection he with he
        subst he
        refine ⟨(hcnt0 hdk).symm, List.nodup_nil, fun m => ?_⟩
        exact ⟨fun hm => absurd hm (List.not_mem_nil m),
          fun hd => absurd hd (hdps0 m hdk)⟩
      · rw [alookup_aensure_ne _ _ _ _ hn] at he
        exact h2 n e he
    · rw [akeys_aensure, if_neg (by simpa using hk), List.nodup_append]
      refine ⟨h3, List.nodup_singleton k, ?_⟩
      intro x hx hx'
      rw [List.mem_singleton] at hx'
      subst hx'
      rw [← alookup_isSome_iff] at hx
      exact hk hx

theorem describes_inc {dom : T → Prop} {cnt : T → Nat} {dps : T → T → Prop}
    {nodes : Nodes T} (h : DescribesMap dom cnt dps nodes) (k : T) :
    DescribesMap dom (fun n => if n = k then cnt n + 1 else cnt n) dps
      (aupdate nodes k (fun e => (e.1, e.2 + 1))) := by
  obtain ⟨h1, h2, h3⟩ := h
  refine ⟨fun n => ?_, fun n e he => ?_, by rwa [akeys_aupdate]⟩
  · by_cases hn : n = k
    · subst hn
      rw [alookup_aupdate_self, ← h1 n]
      cases alookup nodes n <;> simp
    · rw [alookup_aupdate_ne _ _ _ _ hn]
      exact h1 n
  · by_cases hn : n = k
    · subst hn
      rw [alookup_aupdate_self] at he
      cases hl : alookup nodes n with
      | none => rw [hl] at he; simp at he
      | some e' =>
        rw [hl] at he
        injection he with he
        subst he
        obtain ⟨hc, hnd, hm⟩ := h2 n e' hl
        refine ⟨?_, hnd, hm⟩
        show e'.2 + 1 = if n = n then cnt n + 1 else cnt n
        rw [if_pos rfl, hc]
    · rw [alookup_aupdate_ne _ _ _ _ hn] at he
      obtain ⟨hc, hnd, hm⟩ := h2 n e he
      refine ⟨?_, hnd, hm⟩
      show e.2 = if n = k then cnt n + 1 else cnt n
      rw [if_neg hn]
      exact hc

theorem describes_insert_dep {dom : T → Prop} {cnt : T → Nat} {dps : T → T → Prop}
    {nodes : Nodes T} (h : DescribesMap dom cnt dps nodes) (d k : T) :
    DescribesMap dom cnt (fun m n => dps m n ∨ (m = k ∧ n = d))
      (aupdate nodes d (fun e => (e.1.insert k, e.2))) := by
  obtain ⟨h1, h2, h3⟩ := h
  refine ⟨fun n => ?_, fun n e he => ?_, by rwa [akeys_aupdate]⟩
  · by_cases hn : n = d
    · subst hn
      rw [alookup_aupdate_self, ← h1 n]
      cases alookup nodes n <;> simp
    · rw [alookup_aupdate_ne _ _ _ _ hn]
      exact h1 n
  · by_cases hn : n = d
    · subst hn
      rw [alookup_aupdate_self] at he
      cases hl : alookup nodes n with
      | none => rw [hl] at he; simp at he
      | some e' =>
        rw [hl] at he
        injection he with he
        subst he
        obtain ⟨hc, hnd, hm⟩ := h2 n e' hl
        refine ⟨hc, hnd.insert, fun m => ?_⟩
        rw [List.mem_insert_iff]
        rw [hm m]
        tauto
    · rw [alookup_aupdate_ne _ _ _ _ hn] at he
      obtain ⟨hc, hnd, hm⟩ := h2 n e he
      refine ⟨hc, hnd, fun m => (hm m).trans (by tauto)⟩

theorem describes_aremove {dom : T → Prop} {cnt : T → Nat} {dps : T → T → Prop}
    {nodes : Nodes T} (h : DescribesMap dom cnt dps nodes) (k : T) :
    DescribesMap (fun n => dom n ∧ n ≠ k) cnt dps (aremove nodes k) := by
  obtain ⟨h1, h2, h3⟩ := h
  refine ⟨fun n => ?_, fun n e he => ?_, nodup_akeys_aremove _ _ h3⟩
  · by_cases hn : n = k
    · subst hn
      rw [alookup_aremove_self]
      simp
    · rw [alookup_aremove_ne _ _ _ hn]
      rw [h1 n]
      tauto
  · by_cases hn : n = k
    · subst hn
      rw [alookup_aremove_self] at he
      simp at he
    · rw [alookup_aremove_ne _ _ _ hn] at he
      exact h2 n e he

theorem validDeps_cons (store : Store T) (k d : T) (ds : List T) :
    validDeps store k (d :: ds) =
      if k ≠ d ∧ d ∈ skeys store then d :: validDeps store k ds
      else validDeps store k ds := by
  by_cases h : k ≠ d ∧ d ∈ skeys store <;>
    simp [validDeps, List.filter_cons, h]

theorem mem_cleanDeps_iff (store : Store T) (n d : T) :
    d ∈ cleanDeps store n ↔ d ∈ storeDeps store n ∧ d ≠ n ∧ d ∈ skeys store := by
  unfold cleanDeps
  rw [List.mem_filter]
  simp

theorem describes_processDep {dom : T → Prop} {cnt : T → Nat} {dps : T → T → Prop}
    {nodes : Nodes T} (store : Store T) (h : DescribesMap dom cnt dps nodes)
    (k d : T) (hk : dom k)
    (hc0 : ∀ n, ¬ dom n → cnt n = 0) (hd0 : ∀ m n, ¬ dom n → ¬ dps m n) :
    DescribesMap (fun n => dom n ∨ (n = d ∧ k ≠ d ∧ d ∈ skeys store))
      (fun n => if n = k ∧ k ≠ d ∧ d ∈ skeys store then cnt n + 1 else cnt n)
      (fun m n => dps m n ∨ (m = k ∧ n = d ∧ k ≠ d ∧ d ∈ skeys store))
      (processDep store nodes k d) := by
  unfold processDep
  by_cases hne : k ≠ d
  · rw [if_pos hne]
    by_cases hmem : d ∈ skeys store
    · rw [if_pos hmem]
      have e1 := describes_aensure h k (fun hnd => absurd hk hnd)
        (fun m hnd => absurd hk hnd)
      have e1' : DescribesMap dom cnt dps (aensure nodes k newEntry) := by
        refine e1.congr (fun n => ⟨?_, Or.inl⟩) (fun _ _ => rfl) (fun _ _ _ => Iff.rfl)
        rintro (hd | rfl)
        · exact hd
        · exact hk
      have e2 := describes_inc e1' k
      have e3 := describes_aensure e2 d
        (fun hnd => by
          rw [if_neg (fun hh : d = k => hne hh.symm)]
          exact hc0 d hnd)
        (fun m hnd => hd0 m d hnd)
      have e4 := describes_insert_dep e3 d k
      refine e4.congr (fun n => ?_) (fun n hd => ?_) (fun m n hd => ?_)
      · constructor
        · rintro (hd | rfl)
          · exact Or.inl hd
          · exact Or.inr ⟨rfl, hne, hmem⟩
        · rintro (hd | ⟨rfl, _, _⟩)
          · exact Or.inl hd
          · exact Or.inr rfl
      · by_cases hnk : n = k
        · rw [if_pos hnk, if_pos ⟨hnk, hne, hmem⟩]
        · rw [if_neg hnk, if_neg (fun hh => hnk hh.1)]
      · constructor
        · rintro (hdps | ⟨rfl, rfl⟩)
          · exact Or.inl hdps
          · exact Or.inr ⟨rfl, rfl, hne, hmem⟩
        · rintro (hdps | ⟨rfl, rfl, _, _⟩)
          · exact Or.inl hdps
          · exact Or.inr ⟨rfl, rfl⟩
    · rw [if_neg hmem]
      refine h.congr (fun n => ⟨Or.inl, ?_⟩) (fun n hd => ?_) (fun m n hd => ?_)
      · rintro (hd | ⟨_, _, hm⟩)
        · exact hd
        · exact absurd hm hmem
      · rw [if_neg (fun hh => hmem hh.2.2)]
      · constructor
        · exact Or.inl
        · rintro (hdps | ⟨_, _, _, hm⟩)
          · exact hdps
          · exact absurd hm hmem
  · rw [if_neg hne]
    refine h.congr (fun n => ⟨Or.inl, ?_⟩) (fun n hd => ?_) (fun m n hd => ?_)
    · rintro (hd | ⟨_, hn, _⟩)
      · exact hd
      · exact absurd hn hne
    · rw [if_neg (fun hh => hne hh.2.1)]
    · constructor
      · exact Or.inl
      · rintro (hdps | ⟨_, _, hn, _⟩)
        · exact hdps
        · exact absurd hn hne

theorem describes_foldl_processDep (store : Store T) (k : T) (ds : List T) :
    ∀ {dom : T → Prop} {cnt : T → Nat} {dps : T → T → Prop} {nodes : Nodes T},
      DescribesMap dom cnt dps nodes → dom k →
      (∀ n, ¬ dom n → cnt n = 0) → (∀ m n, ¬ dom n → ¬ dps m n) →
      DescribesMap (fun n => dom n ∨ n ∈ validDeps store k ds)
        (fun n => if n = k then cnt n + (validDeps store k ds).length else cnt n)
        (fun m n => dps m n ∨ (m = k ∧ n ∈ validDeps store k ds))
        (ds.foldl (fun ns d => processDep store ns k d) nodes) := by
  induction ds with
  | nil =>
    intro dom cnt dps nodes h hk hc0 hd0
    refine h.congr (fun n => ?_) (fun n hd => ?_) (fun m n hd => ?_) <;>
      simp [validDeps]
  | cons d ds ih =>
    intro dom cnt dps nodes h hk hc0 hd0
    rw [List.foldl_cons]
    have step := describes_processDep store h k d hk hc0 hd0
    have hk1 : (fun n => dom n ∨ (n = d ∧ k ≠ d ∧ d ∈ skeys store)) k := Or.inl hk
    have hc1 : ∀ n, ¬ (dom n ∨ (n = d ∧ k ≠ d ∧ d ∈ skeys store)) →
        (if n = k ∧ k ≠ d ∧ d ∈ skeys store then cnt n + 1 else cnt n) = 0 := by
      intro n hn
      rw [if_neg (fun hh : n = k ∧ k ≠ d ∧ d ∈ skeys store =>
        hn (Or.inl (hh.1.symm ▸ hk)))]
      exact hc0 n (fun hd => hn (Or.inl hd))
    have hd1 : ∀ m n, ¬ (dom n ∨ (n = d ∧ k ≠ d ∧ d ∈ skeys store)) →
        ¬ (dps m n ∨ (m = k ∧ n = d ∧ k ≠ d ∧ d ∈ skeys store)) := by
      rintro m n hn (hdps | ⟨_, hnd, hcond⟩)
      · exact hd0 m n (fun hd => hn (Or.inl hd)) hdps
      · exact hn (Or.inr ⟨hnd, hcond⟩)
    have res := ih step hk1 hc1 hd1
    by_cases hv : k ≠ d ∧ d ∈ skeys store
    · rw [validDeps_cons, if_pos hv]
      refine res.congr (fun n => ?_) (fun n hd => ?_) (fun m n hd => ?_)
      · rw [List.mem_cons]
        tauto
      · by_cases hnk : n = k
        · subst hnk
          rw [if_pos rfl, if_pos rfl, if_pos ⟨rfl, hv⟩, List.length_cons]
          omega
        · rw [if_neg hnk, if_neg hnk, if_neg (fun hh => hnk hh.1)]
      · rw [List.mem_cons]
        tauto
    · rw [validDeps_cons, if_neg hv]
      refine res.congr (fun n => ?_) (fun n hd => ?_) (fun m n hd => ?_)
      · tauto
      · by_cases hnk : n = k
        · subst hnk
          rw [if_pos rfl, if_pos rfl, if_neg (fun hh => hv hh.2)]
        · rw [if_neg hnk, if_neg hnk, if_neg (fun hh => hnk hh.1)]
      · tauto

theorem describes_processEntry {dom : T → Prop} {cnt : T → Nat} {dps : T → T → Prop}
    {nodes : Nodes T} (store : Store T) (h : DescribesMap dom cnt dps nodes)
    (k : T) (ds : List T)
    (hc0 : ∀ n, ¬ dom n → cnt n = 0) (hd0 : ∀ m n, ¬ dom n → ¬ dps m n) :
    DescribesMap (fun n => (dom n ∨ n = k) ∨ n ∈ validDeps store k ds)
      (fun n => if n = k then cnt n + (validDeps store k ds).length else cnt n)
      (fun m n => dps m n ∨ (m = k ∧ n ∈ validDeps store k ds))
      (processEntry store nodes (k, ds)) := by
  have e1 := describes_aensure h k (hc0 k) (fun m => hd0 m k)
  have r := describes_foldl_processDep store k ds e1 (Or.inr rfl)
    (fun n hn => hc0 n (fun hd => hn (Or.inl hd)))
    (fun m n hn => hd0 m n (fun hd => hn (Or.inl hd)))
  exact r

theorem validDeps_eq_filter (store : Store T) (k : T) (ds : List T) :
    validDeps store k ds = ds.filter (fun d => decide (d ≠ k ∧ d ∈ skeys store)) := by
  unfold validDeps
  induction ds with
  | nil => rfl
  | cons d ds ih =>
    rw [List.filter_cons, List.filter_cons, ih]
    by_cases h1 : d = k
    · subst h1
      simp
    · by_cases h2 : d ∈ skeys store <;> simp [h1, h2, Ne.symm h1]

theorem skeys_append (a b : Store T) : skeys (a ++ b) = skeys a ++ skeys b :=
  List.map_append _ a b

theorem cleanDepsIn_not_key (store done : Store T) (n : T) (h : n ∉ skeys done) :
    cleanDepsIn store done n = [] := by
  unfold cleanDepsIn
  rw [(alookup_eq_none_iff done n).2 h]
  rfl

theorem cleanDepsIn_append (store done : Store T) (k : T) (ds : List T)
    (hk : k ∉ skeys done) (m : T) :
    cleanDepsIn store (done ++ [(k, ds)]) m =
      if m = k then validDeps store k ds else cleanDepsIn store done m := by
  unfold cleanDepsIn
  rw [alookup_append]
  by_cases hm : m = k
  · subst hm
    rw [if_pos rfl, validDeps_eq_filter, (alookup_eq_none_iff done m).2 hk]
    simp [alookup_cons]
  · rw [if_neg hm]
    cases hl : alookup done m with
    | some v => simp
    | none =>
      rw [alookup_cons, if_neg (fun hh : k = m => hm hh.symm)]
      rfl

theorem describes_makeNodes_aux (store : Store T) (hnd : (skeys store).Nodup)
    (todo : Store T) :
    ∀ (done : Store T) (nodes : Nodes T), store = done ++ todo →
      DescribesMap (fun n => n ∈ skeys done ∨ ∃ m, n ∈ cleanDepsIn store done m)
        (fun n => (cleanDepsIn store done n).length)
        (fun m n => m ∈ skeys done ∧ n ∈ cleanDepsIn store done m)
        nodes →
      DescribesMap (fun n => n ∈ skeys store ∨ ∃ m, n ∈ cleanDepsIn store store m)
        (fun n => (cleanDepsIn store store n).length)
        (fun m n => m ∈ skeys store ∧ n ∈ cleanDepsIn store store m)
        (todo.foldl (processEntry store) nodes) := by
  induction todo with
  | nil =>
    intro done nodes heq h
    rw [List.append_nil] at heq
    subst heq
    exact h
  | cons p todo ih =>
    obtain ⟨k, ds⟩ := p
    intro done nodes heq h
    rw [List.foldl_cons]
    have hkdone : k ∉ skeys done := by
      intro hmem
      rw [heq, skeys_append] at hnd
      rw [List.nodup_append] at hnd
      exact hnd.2.2 hmem (by simp [skeys])
    have hc0 : ∀ n, ¬ (n ∈ skeys done ∨ ∃ m, n ∈ cleanDepsIn store done m) →
        (cleanDepsIn store done n).length = 0 := by
      intro n hn
      by_cases hkey : n ∈ skeys done
      · exact absurd (Or.inl hkey) hn
      · rw [cleanDepsIn_not_key store done n hkey]
        rfl
    have hd0 : ∀ m n, ¬ (n ∈ skeys done ∨ ∃ m, n ∈ cleanDepsIn store done m) →
        ¬ (m ∈ skeys done ∧ n ∈ cleanDepsIn store done m) := by
      intro m n hn hcon
      exact hn (Or.inr ⟨m, hcon.2⟩)
    have step := describes_processEntry store h k ds hc0 hd0
    have step' : DescribesMap
        (fun n => n ∈ skeys (done ++ [(k, ds)]) ∨
          ∃ m, n ∈ cleanDepsIn store (done ++ [(k, ds)]) m)
        (fun n => (cleanDepsIn store (done ++ [(k, ds)]) n).length)
        (fun m n => m ∈ skeys (done ++ [(k, ds)]) ∧
          n ∈ cleanDepsIn store (done ++ [(k, ds)]) m)
        (processEntry store nodes (k, ds)) := by
      refine step.congr (fun n => ?_) (fun n hd => ?_) (fun m n hd => ?_)
      · constructor
        · rintro ((hd | rfl) | hv)
          · rcases hd with hd | ⟨m, hm⟩
            · exact Or.inl (by rw [skeys_append]; exact List.mem_append_left _ hd)
            · refine Or.inr ⟨m, ?_⟩
              rw [cleanDepsIn_append store done k ds hkdone m]
              by_cases hmk : m = k
              · subst hmk
                rw [cleanDepsIn_not_key store done m hkdone] at hm
                simp at hm
              · rw [if_neg hmk]
                exact hm
          · exact Or.inl (by rw [skeys_append]; simp [skeys])
          · refine Or.inr ⟨k, ?_⟩
            rw [cleanDepsIn_append store done k ds hkdone k, if_pos rfl]
            exact hv
        · rintro (hd | ⟨m, hm⟩)
          · rw [skeys_append] at hd
            rcases List.mem_append.1 hd with hd | hd
            · exact Or.inl (Or.inl (Or.inl hd))
            · simp only [skeys, List.map_cons, List.map_nil, List.mem_singleton] at hd
              exact Or.inl (Or.inr hd)
          · rw [cleanDepsIn_append store done k ds hkdone m] at hm
            by_cases hmk : m = k
            · rw [if_pos hmk] at hm
              exact Or.inr hm
            · rw [if_neg hmk] at hm
              exact Or.inl (Or.inl (Or.inr ⟨m, hm⟩))
      · rw [cleanDepsIn_append store done k ds hkdone n]
        by_cases hnk : n = k
        · subst hnk
          rw [if_pos rfl, if_pos rfl, cleanDepsIn_not_key store done n hkdone]
          simp
        · rw [if_neg hnk, if_neg hnk]
      · rw [cleanDepsIn_append store done k ds hkdone m]
        by_cases hmk : m = k
        · subst hmk
          rw [if_pos rfl]
          constructor
          · rintro (⟨hks, _⟩ | ⟨_, hv⟩)
            · exact absurd hks hkdone
            · exact ⟨by rw [skeys_append]; simp [skeys], hv⟩
          · rintro ⟨_, hv⟩
            exact Or.inr ⟨rfl, hv⟩
        · rw [if_neg hmk]
          constructor
          · rintro (⟨hks, hm⟩ | ⟨rfl, _⟩)
            · exact ⟨by rw [skeys_append]; exact List.mem_append_left _ hks, hm⟩
            · exact absurd rfl hmk
          · rintro ⟨hks, hm⟩
            rw [skeys_append] at hks
            rcases List.mem_append.1 hks with hks | hks
            · exact Or.inl ⟨hks, hm⟩
            · simp only [skeys, List.map_cons, List.map_nil, List.mem_singleton] at hks
              exact absurd hks hmk
    exact ih (done ++ [(k, ds)]) _ (by rw [heq, List.append_assoc]; rfl) step'

theorem describes_makeNodes (store : Store T) (hwf : WF store) :
    DescribesMap (fun n => n ∈ skeys store)
      (fun n => (cleanDeps store n).length)
      (fun m n => m ∈ skeys store ∧ n ∈ cleanDeps store m)
      (makeNodes store) := by
  have base : DescribesMap
      (fun n => n ∈ skeys ([] : Store T) ∨ ∃ m, n ∈ cleanDepsIn store [] m)
      (fun n => (cleanDepsIn store [] n).length)
      (fun m n => m ∈ skeys ([] : Store T) ∧ n ∈ cleanDepsIn store [] m)
      ([] : Nodes T) := by
    refine ⟨fun n => ?_, fun n e he => ?_, List.nodup_nil⟩
    · simp [skeys, cleanDepsIn, alookup]
    · simp [alookup] at he
  have r := describes_makeNodes_aux store hwf.1 store [] [] rfl base
  refine r.congr (fun n => ?_) (fun n _ => rfl) (fun m n _ => Iff.rfl)
  constructor
  · rintro (hd | ⟨m, hm⟩)
    · exact hd
    · exact ((mem_cleanDeps_iff store m n).1 hm).2.2
  · exact Or.inl

theorem cleanDeps_nodup (store : Store T) (hwf : WF store) (n : T) :
    (cleanDeps store n).Nodup := by
  unfold cleanDeps storeDeps
  cases hl : alookup store n with
  | none => exact List.nodup_nil
  | some ds => exact (hwf.2 _ (alookup_mem store n ds hl)).filter _

theorem mem_makeNoEdges_iff (nodes : Nodes T) (hnd : (akeys nodes).Nodup) (n : T) :
    n ∈ makeNoEdges nodes ↔ ∃ deps, alookup nodes n = some (deps, 0) := by
  unfold makeNoEdges
  rw [List.mem_map]
  constructor
  · rintro ⟨p, hp, rfl⟩
    rw [List.mem_filter] at hp
    refine ⟨p.2.1, ?_⟩
    have h0 : p.2.2 = 0 := by simpa using hp.2
    have : alookup nodes p.1 = some p.2 := mem_alookup_of_nodup nodes p.1 p.2 hnd hp.1
    rw [this]
    rw [show p.2 = (p.2.1, p.2.2) from rfl, h0]
  · rintro ⟨deps, hl⟩
    refine ⟨(n, (deps, 0)), ?_, rfl⟩
    rw [List.mem_filter]
    exact ⟨alookup_mem nodes n (deps, 0) hl, by simp⟩

theorem nodup_makeNoEdges (nodes : Nodes T) (hnd : (akeys nodes).Nodup) :
    (makeNoEdges nodes).Nodup := by
  unfold makeNoEdges
  exact hnd.sublist ((List.filter_sublist nodes).map (·.1))

theorem inv_init (store : Store T) (hwf : WF store) :
    Inv store [] (initState store) := by
  have hdesc := describes_makeNodes store hwf
  have hdesc' : DescribesMap (fun n => n ∈ skeys store ∧ n ∉ ([] : List T))
      (fun n => ((cleanDeps store n).filter
        (fun d => decide (d ∉ ([] : List T)))).length)
      (fun m n => m ∈ skeys store ∧ n ∈ cleanDeps store m)
      (makeNodes store) := by
    refine hdesc.congr (fun n => by simp) (fun n _ => ?_) (fun m n _ => Iff.rfl)
    rw [List.filter_eq_self.2 (by simp)]
  refine ⟨hdesc', ?_, ?_, by simp, List.nodup_nil, ?_⟩
  · exact fun n => mem_makeNoEdges_iff _ hdesc'.2.2 n
  · exact nodup_makeNoEdges _ hdesc'.2.2
  · intro pre n post h
    exact absurd h (by simp)

/-! ### Run helpers -/

theorem runInner_succ_some {s s' : IterState T} {r : Except CycleError T}
    (fuel : Nat) (h : innerNext s = (some r, s')) :
    runInner (fuel + 1) s = r :: runInner fuel s' := by
  show (match innerNext s with
    | (none, _) => []
    | (some r, s') => r :: runInner fuel s') = r :: runInner fuel s'
  rw [h]

theorem runInner_succ_none {s s' : IterState T} (fuel : Nat)
    (h : innerNext s = (none, s')) :
    runInner (fuel + 1) s = [] := by
  show (match innerNext s with
    | (none, _) => []
    | (some r, s') => r :: runInner fuel s') = []
  rw [h]

theorem innerNext_empty :
    innerNext (⟨[], []⟩ : IterState T) = (none, (⟨[], []⟩ : IterState T)) := rfl

theorem runInner_empty (fuel : Nat) :
    runInner fuel (⟨[], []⟩ : IterState T) = [] := by
  cases fuel with
  | zero => rfl
  | succ f => rfl

theorem inv_step_done {s : IterState T} (hq : s.noEdges = []) (hn : s.nodes = []) :
    innerNext s = (none, s) := by
  obtain ⟨nodes, noEdges⟩ := s
  simp only at hq hn
  subst hq hn
  rfl

/-! ### Step preservation lemmas -/

theorem describes_dec {dom : T → Prop} {cnt : T → Nat} {dps : T → T → Prop}
    {nodes : Nodes T} (h : DescribesMap dom cnt dps nodes) (k : T) :
    DescribesMap dom (fun n => if n = k then cnt n - 1 else cnt n) dps
      (aupdate nodes k (fun e => (e.1, e.2 - 1))) := by
  obtain ⟨h1, h2, h3⟩ := h
  refine ⟨fun n => ?_, fun n e he => ?_, by rwa [akeys_aupdate]⟩
  · by_cases hn : n = k
    · subst hn
      rw [alookup_aupdate_self, ← h1 n]
      cases alookup nodes n <;> simp
    · rw [alookup_aupdate_ne _ _ _ _ hn]
      exact h1 n
  · by_cases hn : n = k
    · subst hn
      rw [alookup_aupdate_self] at he
      cases hl : alookup nodes n with
      | none => rw [hl] at he; simp at he
      | some e' =>
        rw [hl] at he
        injection he with he
        subst he
        obtain ⟨hc, hnd, hm⟩ := h2 n e' hl
        refine ⟨?_, hnd, hm⟩
        show e'.2 - 1 = if n = n then cnt n - 1 else cnt n
        rw [if_pos rfl, hc]
    · rw [alookup_aupdate_ne _ _ _ _ hn] at he
      obtain ⟨hc, hnd, hm⟩ := h2 n e he
      refine ⟨?_, hnd, hm⟩
      show e.2 = if n = k then cnt n - 1 else cnt n
      rw [if_neg hn]
      exact hc

theorem processDependents_fold_spec (dependents : List T) :
    ∀ {dom : T → Prop} {cnt : T → Nat} {dps : T → T → Prop}
      (nodes : Nodes T) (acc : List T),
      DescribesMap dom cnt dps nodes → dependents.Nodup →
      DescribesMap dom (fun n => if n ∈ dependents then cnt n - 1 else cnt n) dps
        (dependents.foldl pdStep (nodes, acc)).1 ∧
      (∀ n, n ∈ (dependents.foldl pdStep (nodes, acc)).2 ↔
        (n ∈ acc ∨ (dom n ∧ n ∈ dependents ∧ cnt n - 1 = 0))) ∧
      (acc.Nodup → (∀ n ∈ dependents, n ∉ acc) →
        (dependents.foldl pdStep (nodes, acc)).2.Nodup) := by
  induction dependents with
  | nil =>
    intro dom cnt dps nodes acc h hnd
    rw [List.foldl_nil]
    refine ⟨h.congr (fun n => Iff.rfl) (fun n _ => by simp) (fun m n _ => Iff.rfl),
      fun n => by simp, fun ha _ => ha⟩
  | cons d ds ih =>
    intro dom cnt dps nodes acc h hnd
    rw [List.nodup_cons] at hnd
    rw [List.foldl_cons]
    cases hl : alookup nodes d with
    | none =>
      have hdomd : ¬ dom d := by
        rw [← h.1 d, hl]
        simp
      have hstep : pdStep (nodes, acc) d = (nodes, acc) := by
        unfold pdStep
        rw [hl]
      rw [hstep]
      obtain ⟨ihd, ihr, ihn⟩ := ih nodes acc h hnd.2
      refine ⟨ihd.congr (fun n => Iff.rfl) (fun n hdn => ?_) (fun m n _ => Iff.rfl),
        fun n => ?_, fun ha hd => ihn ha (fun n hn => hd n (List.mem_cons_of_mem d hn))⟩
      · by_cases hmem : n ∈ ds
        · rw [if_pos hmem, if_pos (List.mem_cons_of_mem d hmem)]
        · rw [if_neg hmem, if_neg ?_]
          intro hc
          rcases List.mem_cons.1 hc with rfl | hc
          · exact hdomd hdn
          · exact hmem hc
      · rw [ihr n]
        constructor
        · rintro (ha | ⟨hdn, hmem, hc⟩)
          · exact Or.inl ha
          · exact Or.inr ⟨hdn, List.mem_cons_of_mem d hmem, hc⟩
        · rintro (ha | ⟨hdn, hmem, hc⟩)
          · exact Or.inl ha
          · rcases List.mem_cons.1 hmem with rfl | hmem
            · exact absurd hdn hdomd
            · exact Or.inr ⟨hdn, hmem, hc⟩
    | some e =>
      have hdomd : dom d := by
        rw [← h.1 d, hl]
        rfl
      have hcd : e.2 = cnt d := (h.2.1 d e hl).1
      have hdec := describes_dec h d
      have hstep : pdStep (nodes, acc) d =
          (aupdate nodes d (fun e => (e.1, e.2 - 1)),
            if e.2 - 1 = 0 then d :: acc else acc) := by
        unfold pdStep
        rw [hl]
        by_cases h0 : e.2 - 1 = 0 <;> simp [h0]
      rw [hstep]
      obtain ⟨ihd, ihr, ihn⟩ := ih _ _ hdec hnd.2
      refine ⟨ihd.congr (fun n => Iff.rfl) (fun n hdn => ?_) (fun m n _ => Iff.rfl),
        fun n => ?_, fun ha hd => ?_⟩
      · by_cases hmem : n ∈ ds
        · have hne : ¬ n = d := fun hh => hnd.1 (hh ▸ hmem)
          rw [if_pos hmem, if_neg hne, if_pos (List.mem_cons_of_mem d hmem)]
        · by_cases hne : n = d
          · subst hne
            rw [if_neg hmem, if_pos rfl, if_pos (List.mem_cons_self n ds)]
          · rw [if_neg hmem, if_neg hne, if_neg ?_]
            intro hc
            rcases List.mem_cons.1 hc with rfl | hc
            · exact hne rfl
            · exact hmem hc
      · rw [ihr n]
        constructor
        · rintro (hacc | ⟨hdn, hmem, hc⟩)
          · by_cases h0 : e.2 - 1 = 0
            · rw [if_pos h0] at hacc
              rcases List.mem_cons.1 hacc with rfl | hacc
              · exact Or.inr ⟨hdomd, List.mem_cons_self n ds, by rw [← hcd]; exact h0⟩
              · exact Or.inl hacc
            · rw [if_neg h0] at hacc
              exact Or.inl hacc
          · have hne : ¬ n = d := fun hh => hnd.1 (hh ▸ hmem)
            rw [if_neg hne] at hc
            exact Or.inr ⟨hdn, List.mem_cons_of_mem d hmem, hc⟩
        · rintro (hacc | ⟨hdn, hmem, hc⟩)
          · refine Or.inl ?_
            by_cases h0 : e.2 - 1 = 0
            · rw [if_pos h0]
              exact List.mem_cons_of_mem d hacc
            · rw [if_neg h0]
              exact hacc
          · rcases List.mem_cons.1 hmem with rfl | hmem
            · refine Or.inl ?_
              have h0 : e.2 - 1 = 0 := by rw [hcd]; exact hc
              rw [if_pos h0]
              exact List.mem_cons_self n acc
            · have hne : ¬ n = d := fun hh => hnd.1 (hh ▸ hmem)
              exact Or.inr ⟨hdn, hmem, by rw [if_neg hne]; exact hc⟩
      · refine ihn ?_ ?_
        · by_cases h0 : e.2 - 1 = 0
          · rw [if_pos h0, List.nodup_cons]
            exact ⟨hd d (List.mem_cons_self d ds), ha⟩
          · rw [if_neg h0]
            exact ha
        · intro n hn
          have hne : ¬ n = d := fun hh => hnd.1 (hh ▸ hn)
          by_cases h0 : e.2 - 1 = 0
          · rw [if_pos h0, List.mem_cons]
            rintro (hh | hh)
            · exact hne hh
            · exact hd n (List.mem_cons_of_mem d hn) hh
          · rw [if_neg h0]
            exact hd n (List.mem_cons_of_mem d hn)

theorem processDependents_fst_length (dependents : List T) :
    ∀ (nodes : Nodes T) (acc : List T),
      ((dependents.foldl pdStep (nodes, acc)).1).length = nodes.length := by
  induction dependents with
  | nil => intro nodes acc; rfl
  | cons d ds ih =>
    intro nodes acc
    rw [List.foldl_cons]
    cases hl : alookup nodes d with
    | none =>
      have hstep : pdStep (nodes, acc) d = (nodes, acc) := by
        unfold pdStep
        rw [hl]
      rw [hstep, ih]
    | some e =>
      have hstep : pdStep (nodes, acc) d =
          (aupdate nodes d (fun e => (e.1, e.2 - 1)),
            if e.2 - 1 = 0 then d :: acc else acc) := by
        unfold pdStep
        rw [hl]
        by_cases h0 : e.2 - 1 = 0 <;> simp [h0]
      rw [hstep, ih, length_aupdate]

theorem filter_cons_notmem_eq (l em : List T) (v : T) (hv : v ∉ l) :
    l.filter (fun d => decide (d ∉ v :: em)) = l.filter (fun d => decide (d ∉ em)) := by
  apply List.filter_congr
  intro d hd
  have hne : d ≠ v := fun h => hv (h ▸ hd)
  simp [List.mem_cons, hne]

theorem length_filter_cons_notmem (l em : List T) (v : T)
    (hnd : l.Nodup) (hv : v ∈ l) (hvem : v ∉ em) :
    (l.filter (fun d => decide (d ∉ v :: em))).length + 1 =
      (l.filter (fun d => decide (d ∉ em))).length := by
  induction l with
  | nil => simp at hv
  | cons a l ih =>
    rw [List.nodup_cons] at hnd
    rw [List.filter_cons, List.filter_cons]
    rcases List.mem_cons.1 hv with hva | hv
    · subst hva
      rw [if_neg (by simp), if_pos (by simpa using hvem)]
      rw [filter_cons_notmem_eq l em v hnd.1]
      simp
    · by_cases hmem : a ∈ em
      · rw [if_neg (by simp [hmem]), if_neg (by simpa using hmem)]
        exact ih hnd.2 hv
      · by_cases hav : a = v
        · subst hav
          exact absurd hv hnd.1
        · rw [if_pos (by simp [List.mem_cons, hav, hmem]),
            if_pos (by simpa using hmem)]
          simp only [List.length_cons]
          have := ih hnd.2 hv
          omega

theorem zero_lookup_iff {dom : T → Prop} {cnt : T → Nat} {dps : T → T → Prop}
    {nodes : Nodes T} (h : DescribesMap dom cnt dps nodes) (n : T) :
    (∃ ds, alookup nodes n = some (ds, 0)) ↔ (dom n ∧ cnt n = 0) := by
  constructor
  · rintro ⟨ds, hl⟩
    refine ⟨(h.1 n).1 (by rw [hl]; rfl), ?_⟩
    exact ((h.2.1 n (ds, 0) hl).1).symm
  · rintro ⟨hd, hc⟩
    have hs := (h.1 n).2 hd
    cases hl : alookup nodes n with
    | none => rw [hl] at hs; simp at hs
    | some e =>
      obtain ⟨ds, c⟩ := e
      have hcc : c = 0 := ((h.2.1 n (ds, c) hl).1).trans hc
      subst hcc
      exact ⟨ds, rfl⟩

theorem inv_step_ok (store : Store T) (hwf : WF store) {emitted : List T}
    {s : IterState T} (hinv : Inv store emitted s) {v : T} {rest : List T}
    (hq : s.noEdges = v :: rest) :
    ∃ s', innerNext s = (some (Except.ok v), s') ∧ Inv store (v :: emitted) s' ∧
      s'.nodes.length + 1 = s.nodes.length := by
  obtain ⟨hdesc, hready, hrnodup, hesub, henodup, hevalid⟩ := hinv
  obtain ⟨deps, hlv⟩ := (hready v).1 (hq ▸ List.mem_cons_self v rest)
  have hdomv : v ∈ skeys store ∧ v ∉ emitted := (hdesc.1 v).1 (by rw [hlv]; rfl)
  obtain ⟨hcv, hdnodup, hdmem⟩ := hdesc.2.1 v (deps, 0) hlv
  have hdepsem : ∀ d ∈ cleanDeps store v, d ∈ emitted := by
    intro d hd
    by_contra hne
    have hmem : d ∈ (cleanDeps store v).filter (fun d => decide (d ∉ emitted)) := by
      rw [List.mem_filter]
      exact ⟨hd, by simpa using hne⟩
    have hnil : (cleanDeps store v).filter (fun d => decide (d ∉ emitted)) = [] :=
      List.length_eq_zero.1 hcv.symm
    rw [hnil] at hmem
    exact absurd hmem (List.not_mem_nil d)
  have hdepge : ∀ n, n ∈ deps →
      ((cleanDeps store n).filter (fun d => decide (d ∉ emitted))).length ≠ 0 := by
    intro n hn h0
    have hv : v ∈ cleanDeps store n := ((hdmem n).1 hn).2
    have : v ∈ (cleanDeps store n).filter (fun d => decide (d ∉ emitted)) := by
      rw [List.mem_filter]
      exact ⟨hv, by simpa using hdomv.2⟩
    rw [List.length_eq_zero.1 h0] at this
    exact absurd this (List.not_mem_nil v)
  obtain ⟨nodes, noEdges⟩ := s
  simp only at hq hlv hready hrnodup hdesc
  subst hq
  have hstep : innerNext ⟨nodes, v :: rest⟩ =
      (some (Except.ok v),
        ⟨(processDependents (aremove nodes v) deps).1,
          (processDependents (aremove nodes v) deps).2 ++ rest⟩) := by
    show (match alookup nodes v with
      | some e =>
        (some (Except.ok v),
          ({ nodes := (processDependents (aremove nodes v) e.1).1,
             noEdges := (processDependents (aremove nodes v) e.1).2 ++ rest } :
            IterState T))
      | none =>
        (some (Except.ok v),
          ({ nodes := nodes, noEdges := rest } : IterState T))) = _
    rw [hlv]
  have hrm := describes_aremove hdesc v
  obtain ⟨hpdesc, hpready, hpnodup⟩ :=
    processDependents_fold_spec deps (aremove nodes v) [] hrm hdnodup
  have hvkeys : v ∈ akeys nodes := by
    rw [← alookup_isSome_iff, hlv]
    rfl
  refine ⟨_, hstep, ?_, ?_⟩
  swap
  · show (processDependents (aremove nodes v) deps).1.length + 1 = nodes.length
    show ((deps.foldl pdStep (aremove nodes v, [])).1).length + 1 = nodes.length
    rw [processDependents_fst_length]
    exact length_aremove_of_mem nodes v hdesc.2.2 hvkeys
  have hcnt2 : ∀ n, (n ∈ skeys store ∧ n ∉ emitted) ∧ n ≠ v →
      (if n ∈ deps then
        ((cleanDeps store n).filter (fun d => decide (d ∉ emitted))).length - 1
      else ((cleanDeps store n).filter (fun d => decide (d ∉ emitted))).length) =
      ((cleanDeps store n).filter (fun d => decide (d ∉ v :: emitted))).length := by
    intro n hn
    by_cases hvn : v ∈ cleanDeps store n
    · rw [if_pos ((hdmem n).2 ⟨hn.1.1, hvn⟩)]
      have := length_filter_cons_notmem (cleanDeps store n) emitted v
        (cleanDeps_nodup store hwf n) hvn hdomv.2
      omega
    · have hnin : n ∉ deps := fun hh => hvn ((hdmem n).1 hh).2
      rw [if_neg hnin, filter_cons_notmem_eq (cleanDeps store n) emitted v hvn]
  have hdesc' : DescribesMap (fun n => n ∈ skeys store ∧ n ∉ v :: emitted)
      (fun n => ((cleanDeps store n).filter
        (fun d => decide (d ∉ v :: emitted))).length)
      (fun m n => m ∈ skeys store ∧ n ∈ cleanDeps store m)
      (processDependents (aremove nodes v) deps).1 := by
    refine hpdesc.congr (fun n => ?_) (fun n hn => hcnt2 n hn) (fun m n _ => Iff.rfl)
    rw [List.mem_cons]
    tauto
  have hchar := zero_lookup_iff hpdesc
  have hcharold := zero_lookup_iff hdesc
  have hvrest : v ∉ rest := (List.nodup_cons.1 hrnodup).1
  refine ⟨hdesc', fun n => ?_, ?_, ?_, ?_, ?_⟩
  · show n ∈ (processDependents (aremove nodes v) deps).2 ++ rest ↔ _
    simp only [processDependents]
    rw [List.mem_append, hpready n, hchar n]
    simp only [List.not_mem_nil, false_or]
    constructor
    · rintro (⟨hdm, hmem, hc⟩ | hrest)
      · exact ⟨hdm, by rw [if_pos hmem]; exact hc⟩
      · have hnv : n ≠ v := fun hh => hvrest (hh ▸ hrest)
        have hold := (hcharold n).1 ((hready n).1 (List.mem_cons_of_mem v hrest))
        have hnin : n ∉ deps := fun hh => hdepge n hh hold.2
        exact ⟨⟨hold.1, hnv⟩, by rw [if_neg hnin]; exact hold.2⟩
    · rintro ⟨hdm, hc⟩
      by_cases hmem : n ∈ deps
      · rw [if_pos hmem] at hc
        exact Or.inl ⟨hdm, hmem, hc⟩
      · rw [if_neg hmem] at hc
        have : n ∈ v :: rest := (hready n).2 ((hcharold n).2 ⟨hdm.1, hc⟩)
        rcases List.mem_cons.1 this with rfl | hrest
        · exact absurd rfl hdm.2
        · exact Or.inr hrest
  · show ((processDependents (aremove nodes v) deps).2 ++ rest).Nodup
    simp only [processDependents]
    rw [List.nodup_append]
    refine ⟨hpnodup List.nodup_nil (by simp), (List.nodup_cons.1 hrnodup).2, ?_⟩
    intro n hn hn'
    rw [hpready n] at hn
    simp only [List.not_mem_nil, false_or] at hn
    have hold := (hcharold n).1 ((hready n).1 (List.mem_cons_of_mem v hn'))
    exact hdepge n hn.2.1 hold.2
  · intro n hn
    rcases List.mem_cons.1 hn with rfl | hn
    · exact hdomv.1
    · exact hesub n hn
  · rw [List.nodup_cons]
    exact ⟨hdomv.2, henodup⟩
  · intro pre n post h hd hdc
    cases pre with
    | nil =>
      injection h with h1 h2
      subst h1 h2
      exact hdepsem hd hdc
    | cons a pre =>
      injection h with h1 h2
      exact hevalid pre n post h2 hd hdc

theorem inv_step_err (store : Store T) {emitted : List T} {s : IterState T}
    (hinv : Inv store emitted s) (hq : s.noEdges = []) (hne : s.nodes ≠ []) :
    innerNext s = (some (Except.error CycleError.mk), ⟨[], []⟩) ∧
    (∀ r ∈ akeys s.nodes, ∃ d, d ∈ cleanDeps store r ∧ d ∈ akeys s.nodes) ∧
    (∀ n, n ∈ akeys s.nodes ↔ (n ∈ skeys store ∧ n ∉ emitted)) := by
  obtain ⟨hdesc, hready, hrnodup, hesub, henodup, hevalid⟩ := hinv
  obtain ⟨nodes, noEdges⟩ := s
  simp only at hq hready hdesc hne ⊢
  subst hq
  have hkeys : ∀ n, n ∈ akeys nodes ↔ (n ∈ skeys store ∧ n ∉ emitted) := by
    intro n
    rw [← alookup_isSome_iff, hdesc.1 n]
  refine ⟨?_, ?_, hkeys⟩
  · show (if nodes.isEmpty then
        ((none : Option (Except CycleError T)), ({ nodes := nodes, noEdges := [] } : IterState T))
      else (some (Except.error CycleError.mk), ({ nodes := [], noEdges := [] } : IterState T))) = _
    rw [if_neg (by simpa [List.isEmpty_iff] using hne)]
  · intro r hr
    have hrs := (alookup_isSome_iff nodes r).2 hr
    cases hl : alookup nodes r with
    | none => rw [hl] at hrs; simp at hrs
    | some e =>
      obtain ⟨ds, c⟩ := e
      have hc0 : c ≠ 0 := by
        intro h0
        subst h0
        have : r ∈ ([] : List T) := (hready r).2 ⟨ds, hl⟩
        exact absurd this (List.not_mem_nil r)
      have hcc : c = ((cleanDeps store r).filter
          (fun d => decide (d ∉ emitted))).length := (hdesc.2.1 r (ds, c) hl).1
      have hnnil : (cleanDeps store r).filter (fun d => decide (d ∉ emitted)) ≠ [] := by
        intro hh
        rw [hh] at hcc
        exact hc0 hcc
      obtain ⟨d, hdmem⟩ := List.exists_mem_of_ne_nil _ hnnil
      rw [List.mem_filter] at hdmem
      refine ⟨d, hdmem.1, ?_⟩
      rw [hkeys d]
      refine ⟨((mem_cleanDeps_iff store r d).1 hdmem.1).2.2, by simpa using hdmem.2⟩

/-! ### The main run characterization -/

theorem run_spec (store : Store T) (hwf : WF store) :
    ∀ (N : Nat) (s : IterState T) (emitted : List T), s.nodes.length = N →
      Inv store emitted s →
      ∃ l : List T, l.Nodup ∧ ValidRev store (l.reverse ++ emitted) ∧
        (∀ n ∈ l, n ∈ skeys store ∧ n ∉ emitted) ∧
        ((∀ fuel, N < fuel → runInner fuel s = l.map Except.ok) ∧
            (∀ n, n ∈ skeys store → n ∉ emitted → n ∈ l) ∨
          ∃ R : List T, R ≠ [] ∧ R.Nodup ∧ (∀ n ∈ R, n ∉ l) ∧
            (∀ n, (n ∈ skeys store ∧ n ∉ emitted) ↔ (n ∈ l ∨ n ∈ R)) ∧
            (∀ r ∈ R, ∃ d, d ∈ cleanDeps store r ∧ d ∈ R) ∧
            (∀ fuel, N < fuel →
              runInner fuel s = l.map Except.ok ++ [Except.error CycleError.mk])) := by
  intro N
  induction N using Nat.strong_induction_on with
  | _ N ih =>
    intro s emitted hN hinv
    cases hq : s.noEdges with
    | nil =>
      cases hn : s.nodes with
      | nil =>
        refine ⟨[], List.nodup_nil, hinv.evalid, by simp, Or.inl ⟨?_, ?_⟩⟩
        · intro fuel hfuel
          cases fuel with
          | zero => simp at hfuel
          | succ f =>
            rw [runInner_succ_none f (inv_step_done hq hn)]
            rfl
        · intro n hns hne
          have hmem := (hinv.desc.1 n).2 ⟨hns, hne⟩
          rw [hn] at hmem
          simp at hmem
      | cons p ps =>
        obtain ⟨hstep, hR, hpart⟩ := inv_step_err store hinv hq (by rw [hn]; simp)
        refine ⟨[], List.nodup_nil, hinv.evalid, by simp,
          Or.inr ⟨akeys s.nodes, ?_, hinv.desc.2.2, by simp, ?_, hR, ?_⟩⟩
        · rw [hn]
          simp [akeys]
        · intro n
          rw [← hpart n]
          simp
        · intro fuel hfuel
          have hN1 : 1 ≤ N := by
            rw [← hN, hn]
            simp
          cases fuel with
          | zero => omega
          | succ f =>
            rw [runInner_succ_some f hstep, runInner_empty]
            rfl
    | cons v rest =>
      obtain ⟨s', hstep, hinv', hlen⟩ := inv_step_ok store hwf hinv hq
      have hdomv : v ∈ skeys store ∧ v ∉ emitted := by
        obtain ⟨deps, hlv⟩ := (hinv.ready v).1 (hq ▸ List.mem_cons_self v rest)
        exact (hinv.desc.1 v).1 (by rw [hlv]; rfl)
      have hN1 : s'.nodes.length = N - 1 := by omega
      obtain ⟨l', hnd', hvalid', hsub', hcase'⟩ :=
        ih (N - 1) (by omega) s' (v :: emitted) hN1 hinv'
      have hvl' : v ∉ l' := fun hb => (hsub' v hb).2 (List.mem_cons_self v emitted)
      have hrev : (v :: l').reverse ++ emitted = l'.reverse ++ (v :: emitted) := by
        rw [List.reverse_cons, List.append_assoc]
        rfl
      refine ⟨v :: l', ?_, ?_, ?_, ?_⟩
      · rw [List.nodup_cons]
        exact ⟨hvl', hnd'⟩
      · rw [hrev]
        exact hvalid'
      · intro n hn
        rcases List.mem_cons.1 hn with rfl | hn
        · exact hdomv
        · have hs := hsub' n hn
          exact ⟨hs.1, fun hh => hs.2 (List.mem_cons_of_mem v hh)⟩
      · rcases hcase' with ⟨hrun', hcompl'⟩ | ⟨R, hRne, hRnd, hRl, hpart, hRcond, hrun'⟩
        · refine Or.inl ⟨?_, ?_⟩
          · intro fuel hfuel
            cases fuel with
            | zero => omega
            | succ f =>
              rw [runInner_succ_some f hstep, hrun' f (by omega)]
              rfl
          · intro n hns hne
            by_cases hnv : n = v
            · subst hnv
              exact List.mem_cons_self n l'
            · refine List.mem_cons_of_mem v (hcompl' n hns ?_)
              intro hh
              rcases List.mem_cons.1 hh with hh | hh
              · exact hnv hh
              · exact hne hh
        · refine Or.inr ⟨R, hRne, hRnd, ?_, ?_, hRcond, ?_⟩
          · intro n hnR hnl
            have hdm := (hpart n).2 (Or.inr hnR)
            rcases List.mem_cons.1 hnl with rfl | hnl
            · exact hdm.2 (List.mem_cons_self n emitted)
            · exact hRl n hnR hnl
          · intro n
            constructor
            · rintro ⟨hns, hne⟩
              by_cases hnv : n = v
              · subst hnv
                exact Or.inl (List.mem_cons_self n l')
              · have hne' : n ∉ v :: emitted := by
                  intro hh
                  rcases List.mem_cons.1 hh with hh | hh
                  · exact hnv hh
                  · exact hne hh
                rcases (hpart n).1 ⟨hns, hne'⟩ with h | h
                · exact Or.inl (List.mem_cons_of_mem v h)
                · exact Or.inr h
            · rintro (hnl | hnR)
              · rcases List.mem_cons.1 hnl with rfl | hnl
                · exact hdomv
                · have hs := hsub' n hnl
                  exact ⟨hs.1, fun hh => hs.2 (List.mem_cons_of_mem v hh)⟩
              · have hs := (hpart n).2 (Or.inr hnR)
                exact ⟨hs.1, fun hh => hs.2 (List.mem_cons_of_mem v hh)⟩
          · intro fuel hfuel
            cases fuel with
            | zero => omega
            | succ f =>
              rw [runInner_succ_some f hstep, hrun' f (by omega)]
              rfl

theorem depEdge_target_key (store : Store T) {d n : T} (h : DepEdge store d n) :
    n ∈ skeys store := by
  unfold DepEdge cleanDeps storeDeps at h
  cases hl : alookup store n with
  | none =>
    rw [hl] at h
    simp at h
  | some ds =>
    have hs : (alookup store n).isSome := by
      rw [hl]
      rfl
    exact (alookup_isSome_iff store n).1 hs

theorem depEdge_source_key (store : Store T) {d n : T} (h : DepEdge store d n) :
    d ∈ skeys store := ((mem_cleanDeps_iff store n d).1 h).2.2

theorem cycle_node_key (store : Store T) {n : T}
    (h : Relation.TransGen (DepEdge store) n n) : n ∈ skeys store := by
  obtain ⟨b, _, hbn⟩ := Relation.TransGen.tail'_iff.1 h
  exact depEdge_target_key store hbn

theorem validRev_ancestors (store : Store T) (em : List T) (hv : ValidRev store em) :
    ∀ n ∈ em, ∀ m, Relation.TransGen (DepEdge store) m n →
      ∃ pre post, em = pre ++ n :: post ∧ m ∈ post := by
  induction em with
  | nil =>
    intro n hn
    simp at hn
  | cons a em ih =>
    have hv' : ValidRev store em := by
      intro pre n post h d hd
      exact hv (a :: pre) n post (by rw [h]; rfl) d hd
    intro n hn m hm
    rcases List.mem_cons.1 hn with rfl | hn
    · obtain ⟨b, hmb, hba⟩ := Relation.TransGen.tail'_iff.1 hm
      have hbem : b ∈ em := hv [] n em rfl b hba
      have hmem : m ∈ em := by
        rcases Relation.reflTransGen_iff_eq_or_transGen.1 hmb with rfl | htg
        · exact hbem
        · obtain ⟨pre, post, heq, hmp⟩ := ih hv' b hbem m htg
          rw [heq]
          exact List.mem_append_right _ (List.mem_cons_of_mem b hmp)
      exact ⟨[], em, rfl, hmem⟩
    · obtain ⟨pre, post, heq, hmp⟩ := ih hv' n hn m hm
      exact ⟨a :: pre, post, by rw [heq]; rfl, hmp⟩

theorem validRev_no_cycle (store : Store T) (em : List T) (hv : ValidRev store em)
    (hnd : em.Nodup) : ∀ n ∈ em, ¬ Relation.TransGen (DepEdge store) n n := by
  intro n hn hcyc
  obtain ⟨pre, post, heq, hmem⟩ := validRev_ancestors store em hv n hn n hcyc
  rw [heq] at hnd
  have h2 := (List.nodup_append.1 hnd).2.1
  rw [List.nodup_cons] at h2
  exact h2.1 hmem

theorem validRev_safe (store : Store T) (em : List T) (hv : ValidRev store em)
    (hnd : em.Nodup) : ∀ n ∈ em, Safe store n := by
  intro n hn m hmn hcyc
  rcases Relation.reflTransGen_iff_eq_or_transGen.1 hmn with rfl | htg
  · exact validRev_no_cycle store em hv hnd n hn hcyc
  · obtain ⟨pre, post, heq, hmem⟩ := validRev_ancestors store em hv n hn m htg
    have hmem' : m ∈ em := by
      rw [heq]
      exact List.mem_append_right _ (List.mem_cons_of_mem n hmem)
    exact validRev_no_cycle store em hv hnd m hmem' hcyc

theorem stuck_cycle_ancestor (store : Store T) (R : List T)
    (hcond : ∀ r ∈ R, ∃ d, d ∈ cleanDeps store r ∧ d ∈ R) :
    ∀ r ∈ R, ∃ m, Relation.TransGen (DepEdge store) m m ∧
      Relation.ReflTransGen (DepEdge store) m r := by
  intro r hr
  let f : T → T := fun x =>
    if h : ∃ d, d ∈ cleanDeps store x ∧ d ∈ R then h.choose else x
  have hf : ∀ x ∈ R, DepEdge store (f x) x ∧ f x ∈ R := by
    intro x hx
    obtain ⟨d, hd1, hd2⟩ := hcond x hx
    have hex : ∃ d, d ∈ cleanDeps store x ∧ d ∈ R := ⟨d, hd1, hd2⟩
    have hfx : f x = hex.choose := by
      show (if h : ∃ d, d ∈ cleanDeps store x ∧ d ∈ R then h.choose else x) =
        hex.choose
      rw [dif_pos hex]
    rw [hfx]
    exact ⟨hex.choose_spec.1, hex.choose_spec.2⟩
  have hgR : ∀ k, f^[k] r ∈ R := by
    intro k
    induction k with
    | zero => exact hr
    | succ k ihk =>
      rw [Function.iterate_succ_apply']
      exact (hf _ ihk).2
  have hedge : ∀ k, DepEdge store (f^[k + 1] r) (f^[k] r) := by
    intro k
    rw [Function.iterate_succ_apply']
    exact (hf _ (hgR k)).1
  have hchain : ∀ i k, Relation.TransGen (DepEdge store) (f^[i + k + 1] r) (f^[i] r) := by
    intro i k
    induction k with
    | zero => exact Relation.TransGen.single (hedge i)
    | succ k ihk =>
      have hstep : DepEdge store (f^[i + k + 1 + 1] r) (f^[i + k + 1] r) :=
        hedge (i + k + 1)
      exact Relation.TransGen.head hstep ihk
  have hrtg : ∀ k, Relation.ReflTransGen (DepEdge store) (f^[k] r) r := by
    intro k
    cases k with
    | zero => exact Relation.ReflTransGen.refl
    | succ k =>
      have hc := (hchain 0 k).to_reflTransGen
      simpa using hc
  have hmaps : ∀ a : Fin (R.length + 1), a ∈ (Finset.univ : Finset (Fin (R.length + 1))) →
      f^[(a : Nat)] r ∈ R.toFinset := by
    intro a _
    rw [List.mem_toFinset]
    exact hgR a
  have hcard : R.toFinset.card < (Finset.univ : Finset (Fin (R.length + 1))).card := by
    rw [Finset.card_univ, Fintype.card_fin]
    exact Nat.lt_succ_of_le R.toFinset_card_le
  obtain ⟨a, _, b, _, hab, heq⟩ :=
    Finset.exists_ne_map_eq_of_card_lt_of_maps_to hcard hmaps
  rcases Nat.lt_or_ge (a : Nat) (b : Nat) with hlt | hge
  · obtain ⟨k, hk⟩ := Nat.exists_eq_add_of_lt hlt
    refine ⟨f^[(b : Nat)] r, ?_, hrtg _⟩
    have hc := hchain (a : Nat) k
    rw [← hk] at hc
    rw [heq] at hc
    exact hc
  · have hlt : (b : Nat) < (a : Nat) := by
      rcases Nat.lt_or_ge (b : Nat) (a : Nat) with h | h
      · exact h
      · exact absurd (Fin.ext (Nat.le_antisymm h hge)) hab
    obtain ⟨k, hk⟩ := Nat.exists_eq_add_of_lt hlt
    refine ⟨f^[(a : Nat)] r, ?_, hrtg _⟩
    have hc := hchain (b : Nat) k
    rw [← hk] at hc
    rw [← heq] at hc
    exact hc

/-! ### Top-level traversal specifications -/

theorem initState_nodes_length (store : Store T) (hwf : WF store) :
    (initState store).nodes.length = store.length := by
  have hdesc := describes_makeNodes store hwf
  have hmem : ∀ n, n ∈ akeys (makeNodes store) ↔ n ∈ skeys store := by
    intro n
    rw [← alookup_isSome_iff]
    exact hdesc.1 n
  have hperm : (akeys (makeNodes store)).Perm (skeys store) :=
    (List.perm_ext_iff_of_nodup hdesc.2.2 hwf.1).2 hmem
  have h1 : (akeys (makeNodes store)).length = (skeys store).length := hperm.length_eq
  have h2 : (akeys (makeNodes store)).length = (makeNodes store).length := by
    simp [akeys]
  have h3 : (skeys store).length = store.length := by
    simp [skeys]
  show (makeNodes store).length = store.length
  omega

theorem validOrder_of_validRev (store : Store T) (l : List T)
    (h : ValidRev store l.reverse) : validOrder store l := by
  intro pre n post heq d hd
  have hrev : l.reverse = post.reverse ++ n :: pre.reverse := by
    rw [heq]
    simp
  have hmem := h post.reverse n pre.reverse hrev d hd
  rwa [List.mem_reverse] at hmem

theorem toposort_acyclic_spec (store : Store T) (hwf : WF store)
    (hacyc : ¬ HasCycle store) :
    ∃ l : List T, l.Nodup ∧ validOrder store l ∧
      (∀ n, n ∈ l ↔ n ∈ skeys store) ∧
      (∀ fuel, store.length < fuel →
        runInner fuel (initState store) = l.map Except.ok) ∧
      toposortList store = l.map Except.ok := by
  obtain ⟨l, hnd, hvalid, hsub, hcase⟩ := run_spec store hwf
    (initState store).nodes.length (initState store) [] rfl (inv_init store hwf)
  rw [initState_nodes_length store hwf] at hcase
  rcases hcase with ⟨hrun, hcompl⟩ | ⟨R, hRne, _, _, _, hRcond, _⟩
  · refine ⟨l, hnd, ?_, ?_, hrun, hrun (store.length + 1) (Nat.lt_succ_self _)⟩
    · apply validOrder_of_validRev
      have hra : l.reverse ++ [] = l.reverse := List.append_nil _
      rw [hra] at hvalid
      exact hvalid
    · intro n
      exact ⟨fun hn => (hsub n hn).1, fun hn => hcompl n hn (List.not_mem_nil n)⟩
  · exfalso
    obtain ⟨r, hr⟩ := List.exists_mem_of_ne_nil R hRne
    obtain ⟨m, hm, _⟩ := stuck_cycle_ancestor store R hRcond r hr
    exact hacyc ⟨m, hm⟩

theorem toposort_cyclic_spec (store : Store T) (hwf : WF store)
    (hcyc : HasCycle store) :
    ∃ l : List T, l.Nodup ∧ validOrder store l ∧
      (∀ n, n ∈ l ↔ (n ∈ skeys store ∧ Safe store n)) ∧
      (∀ fuel, store.length < fuel →
        runInner fuel (initState store) =
          l.map Except.ok ++ [Except.error CycleError.mk]) ∧
      toposortList store = l.map Except.ok ++ [Except.error CycleError.mk] := by
  obtain ⟨l, hnd, hvalid, hsub, hcase⟩ := run_spec store hwf
    (initState store).nodes.length (initState store) [] rfl (inv_init store hwf)
  rw [initState_nodes_length store hwf] at hcase
  have hra : l.reverse ++ [] = l.reverse := List.append_nil _
  rw [hra] at hvalid
  rcases hcase with ⟨hrun, hcompl⟩ | ⟨R, hRne, _, hRl, hpart, hRcond, hrun⟩
  · exfalso
    obtain ⟨m, hm⟩ := hcyc
    have hml : m ∈ l := hcompl m (cycle_node_key store hm) (List.not_mem_nil m)
    exact validRev_no_cycle store l.reverse hvalid (List.nodup_reverse.2 hnd) m
      (List.mem_reverse.2 hml) hm
  · refine ⟨l, hnd, validOrder_of_validRev store l hvalid, ?_, hrun,
      hrun (store.length + 1) (Nat.lt_succ_self _)⟩
    intro n
    constructor
    · intro hn
      refine ⟨(hsub n hn).1, ?_⟩
      exact validRev_safe store l.reverse hvalid (List.nodup_reverse.2 hnd) n (List.mem_reverse.2 hn)
    · rintro ⟨hns, hsafe⟩
      by_contra hnl
      have hnR : n ∈ R := by
        rcases (hpart n).1 ⟨hns, List.not_mem_nil n⟩ with h | h
        · exact absurd h hnl
        · exact h
      obtain ⟨m, hm, hmr⟩ := stuck_cycle_ancestor store R hRcond n hnR
      exact hsafe m hmr hm

/-- A store is acyclic whenever a rank function strictly increases along
dependency edges. -/
theorem acyclic_of_rank (store : Store T) (rank : T → Nat)
    (h : ∀ d n, DepEdge store d n → rank d < rank n) : ¬ HasCycle store := by
  rintro ⟨n, hn⟩
  have hmono : ∀ a b, Relation.TransGen (DepEdge store) a b → rank a < rank b := by
    intro a b hab
    induction hab with
    | single hs => exact h _ _ hs
    | tail _ hs ihs => exact Nat.lt_trans ihs (h _ _ hs)
  exact Nat.lt_irrefl _ (hmono n n hn)

/-! ### View-layer lemmas -/

theorem collectOk_all_ok (l : List T) :
    collectOk (l.map Except.ok) = Except.ok l := by
  induction l with
  | nil => rfl
  | cons x l ih => simp [collectOk, ih, Except.map]

theorem collectOk_with_error (l : List T) (e : CycleError) :
    collectOk (l.map Except.ok ++ [Except.error e]) = Except.error e := by
  induction l with
  | nil => rfl
  | cons x l ih => simp [collectOk, ih, Except.map]

theorem except_map_id (rs : List (Except CycleError T)) :
    rs.map (fun r => r.map (fun node => node)) = rs := by
  induction rs with
  | nil => rfl
  | cons r rs ih =>
    rw [List.map_cons, ih]
    cases r <;> rfl

theorem runInto_succ_some {s s' : IntoIterState T}
    {r : Except CycleError (T × List T)} (fuel : Nat)
    (h : intoNext s = (some r, s')) :
    runInto (fuel + 1) s = (r :: (runInto fuel s').1, (runInto fuel s').2) := by
  show (match intoNext s with
    | (none, s') => ([], s')
    | (some r, s') =>
      let t := runInto fuel s'
      (r :: t.1, t.2)) = _
  rw [h]

theorem runInto_succ_none {s s' : IntoIterState T} (fuel : Nat)
    (h : intoNext s = (none, s')) :
    runInto (fuel + 1) s = ([], s') := by
  show (match intoNext s with
    | (none, s') => ([], s')
    | (some r, s') =>
      let t := runInto fuel s'
      (r :: t.1, t.2)) = _
  rw [h]

theorem intoNext_ok {s : IntoIterState T} {n : T} {i : IterState T}
    (h : innerNext s.inner = (some (Except.ok n), i)) {deps : List T}
    (hl : alookup s.node_depends n = some deps) :
    intoNext s =
      (some (Except.ok (n, deps)), ⟨i, aremove s.node_depends n⟩) := by
  unfold intoNext
  rw [h]
  show (match alookup s.node_depends n with
    | some deps =>
      (some (Except.ok (n, deps)),
        ({ inner := i, node_depends := aremove s.node_depends n } : IntoIterState T))
    | none =>
      (none,
        ({ inner := i, node_depends := s.node_depends } : IntoIterState T))) = _
  rw [hl]

theorem intoNext_none {s : IntoIterState T} {i : IterState T}
    (h : innerNext s.inner = (none, i)) :
    intoNext s = (none, ⟨i, s.node_depends⟩) := by
  unfold intoNext
  rw [h]

theorem mem_foldl_filter (l : List T) :
    ∀ (ks : List T) (x : T),
      x ∈ l.foldl (fun ks n => ks.filter (fun y => !decide (y = n))) ks ↔
        (x ∈ ks ∧ x ∉ l) := by
  induction l with
  | nil =>
    intro ks x
    simp
  | cons n l ih =>
    intro ks x
    rw [List.foldl_cons, ih]
    rw [List.mem_filter]
    simp only [List.mem_cons, Bool.not_eq_true']
    constructor
    · rintro ⟨⟨hk, hn⟩, hl⟩
      refine ⟨hk, ?_⟩
      rintro (rfl | hx)
      · simp at hn
      · exact hl hx
    · rintro ⟨hk, hnl⟩
      refine ⟨⟨hk, ?_⟩, fun hx => hnl (Or.inr hx)⟩
      simp only [decide_eq_false_iff_not]
      exact fun hh => hnl (Or.inl hh)

theorem foldl_aremove_akeys (l : List T) :
    ∀ (st : Store T), akeys (l.foldl (fun m n => aremove m n) st) =
      l.foldl (fun ks n => ks.filter (fun y => !decide (y = n))) (akeys st) := by
  induction l with
  | nil => intro st; rfl
  | cons n l ih =>
    intro st
    rw [List.foldl_cons, List.foldl_cons, ih, akeys_aremove]

theorem foldl_aremove_nil (l : List T) (st : Store T)
    (h : ∀ k ∈ akeys st, k ∈ l) :
    l.foldl (fun m n => aremove m n) st = [] := by
  have hkeys : akeys (l.foldl (fun m n => aremove m n) st) = [] := by
    rw [foldl_aremove_akeys]
    rw [List.eq_nil_iff_forall_not_mem]
    intro x hx
    rw [mem_foldl_filter] at hx
    exact hx.2 (h x hx.1)
  exact List.map_eq_nil.1 hkeys

theorem runInto_spec :
    ∀ (l : List T) (fuel : Nat) (s : IterState T) (st : Store T),
      runInner fuel s = l.map Except.ok → l.Nodup →
      (∀ n ∈ l, n ∈ akeys st) →
      (runInto fuel ⟨s, st⟩).1 =
        l.map (fun n => Except.ok (n, storeDeps st n)) ∧
      (runInto fuel ⟨s, st⟩).2.node_depends =
        l.foldl (fun m n => aremove m n) st := by
  intro l fuel
  induction fuel generalizing l with
  | zero =>
    intro s st hrun hnd hsub
    have hl : l = [] := by
      have := hrun.symm
      rw [show runInner 0 s = [] from rfl] at hrun
      exact (List.map_eq_nil.1 hrun.symm)
    subst hl
    exact ⟨rfl, rfl⟩
  | succ fuel ih =>
    intro s st hrun hnd hsub
    rcases hstep : innerNext s with ⟨o, s0⟩
    rcases o with _ | r
    · rw [runInner_succ_none fuel hstep] at hrun
      have hl : l = [] := List.map_eq_nil.1 hrun.symm
      subst hl
      rw [runInto_succ_none fuel (intoNext_none hstep)]
      exact ⟨rfl, rfl⟩
    · rcases r with e | n
      · rw [runInner_succ_some fuel hstep] at hrun
        cases l with
        | nil => simp at hrun
        | cons m l =>
          rw [List.map_cons] at hrun
          injection hrun with h1 h2
          simp at h1
      · rw [runInner_succ_some fuel hstep] at hrun
        cases l with
        | nil => simp at hrun
        | cons m l =>
          rw [List.map_cons] at hrun
          injection hrun with h1 h2
          injection h1 with hnm
          subst hnm
          rw [List.nodup_cons] at hnd
          have hnkeys : n ∈ akeys st := hsub n (List.mem_cons_self n l)
          have hsome : (alookup st n).isSome := (alookup_isSome_iff st n).2 hnkeys
          cases hl : alookup st n with
          | none => rw [hl] at hsome; simp at hsome
          | some deps =>
            rw [runInto_succ_some fuel (intoNext_ok hstep hl)]
            have hsubr : ∀ m ∈ l, m ∈ akeys (aremove st n) := by
              intro m hml
              have hmn : m ≠ n := fun hh => hnd.1 (hh ▸ hml)
              rw [akeys_aremove, List.mem_filter]
              refine ⟨hsub m (List.mem_cons_of_mem n hml), by simp [hmn]⟩
            obtain ⟨ih1, ih2⟩ := ih l s0 (aremove st n) h2 hnd.2 hsubr
            constructor
            · show Except.ok (n, deps) :: (runInto fuel ⟨s0, aremove st n⟩).1 = _
              rw [ih1, List.map_cons]
              have hdeps : storeDeps st n = deps := by
                unfold storeDeps
                rw [hl]
                rfl
              rw [hdeps]
              congr 1
              apply List.map_congr_left
              intro m hml
              have hmn : m ≠ n := fun hh => hnd.1 (hh ▸ hml)
              unfold storeDeps
              rw [alookup_aremove_ne st n m hmn]
            · show (runInto fuel ⟨s0, aremove st n⟩).2.node_depends = _
              rw [ih2]
              rfl

theorem tsIterate_store (k : Nat) :
    ∀ s : TopoSortIterState T, (tsIterate k s).node_depends = s.node_depends := by
  induction k with
  | zero => intro s; rfl
  | succ k ihk =>
    intro s
    show (tsIterate k (topoSortIterNext s).2).node_depends = _
    rw [ihk]
    unfold topoSortIterNext
    split <;> rfl

theorem stateAfter_fix {s : IterState T} (h : innerNext s = (none, s)) :
    ∀ k, stateAfter k s = s := by
  intro k
  induction k with
  | zero => rfl
  | succ k ihk =>
    show stateAfter k (innerNext s).2 = s
    rw [h]
    exact ihk

theorem okNodes_cons_ok (v : T) (rs : List (Except CycleError T)) :
    okNodes (Except.ok v :: rs) = v :: okNodes rs := rfl

theorem size_run (store : Store T) (hwf : WF store) :
    ∀ (k : Nat) (s : IterState T) (emitted : List T), Inv store emitted s →
      (stateAfter k s).nodes.length =
        if Except.error CycleError.mk ∈ runInner k s then 0
        else s.nodes.length - (okNodes (runInner k s)).length := by
  intro k
  induction k with
  | zero =>
    intro s emitted hinv
    show s.nodes.length = _
    rw [show runInner 0 s = [] from rfl]
    simp [okNodes]
  | succ k ihk =>
    intro s emitted hinv
    cases hq : s.noEdges with
    | nil =>
      cases hn : s.nodes with
      | nil =>
        have hfix := inv_step_done hq hn
        rw [runInner_succ_none k hfix]
        have hsa : stateAfter (k + 1) s = s := stateAfter_fix hfix (k + 1)
        rw [hsa, hn]
        simp [okNodes]
      | cons p ps =>
        obtain ⟨hstep, _, _⟩ := inv_step_err store hinv hq (by rw [hn]; simp)
        rw [runInner_succ_some k hstep]
        have hsa : stateAfter (k + 1) s = stateAfter k (⟨[], []⟩ : IterState T) := by
          show stateAfter k (innerNext s).2 = _
          rw [hstep]
        rw [hsa, stateAfter_fix innerNext_empty k]
        simp [runInner_empty]
    | cons v rest =>
      obtain ⟨s', hstep, hinv', hlen⟩ := inv_step_ok store hwf hinv hq
      rw [runInner_succ_some k hstep]
      have hsa : stateAfter (k + 1) s = stateAfter k s' := by
        show stateAfter k (innerNext s).2 = _
        rw [hstep]
      rw [hsa]
      have hih := ihk s' (v :: emitted) hinv'
      rw [okNodes_cons_ok]
      have hmem : (Except.error CycleError.mk ∈
          Except.ok v :: runInner k s') ↔
          Except.error CycleError.mk ∈ runInner k s' := by
        rw [List.mem_cons]
        simp
      by_cases herr : Except.error CycleError.mk ∈ runInner k s'
      · rw [if_pos (hmem.2 herr)]
        rw [hih, if_pos herr]
      · rw [if_neg (fun hh => herr (hmem.1 hh))]
        rw [hih, if_neg herr]
        simp only [List.length_cons]
        omega

theorem skeys_scrub (store : Store T) : skeys (scrub store) = skeys store := by
  unfold skeys scrub
  rw [List.map_map]
  apply List.map_congr_left
  intro p _
  rfl

theorem processDep_scrub (store : Store T) (nodes : Nodes T) (k d : T) :
    processDep (scrub store) nodes k d = processDep store nodes k d := by
  unfold processDep
  rw [skeys_scrub]

theorem processDep_self_or_dangling (store : Store T) (nodes : Nodes T) (k d : T)
    (h : ¬ (d ≠ k ∧ d ∈ skeys store)) : processDep store nodes k d = nodes := by
  unfold processDep
  by_cases hd : d = k
  · rw [if_neg (fun hh : k ≠ d => hh hd.symm)]
  · push_neg at h
    rw [if_pos (fun hh : k = d => hd hh.symm), if_neg (h hd)]

theorem foldl_fn_congr {α β : Type} (f g : β → α → β) (l : List α)
    (h : ∀ acc x, f acc x = g acc x) :
    ∀ init, l.foldl f init = l.foldl g init := by
  induction l with
  | nil => intro init; rfl
  | cons x l ih =>
    intro init
    rw [List.foldl_cons, List.foldl_cons, h]
    exact ih _

theorem foldl_processDep_filter (store : Store T) (k : T) (ds : List T) :
    ∀ nodes : Nodes T,
      (ds.filter (fun d => decide (d ≠ k ∧ d ∈ skeys store))).foldl
        (fun ns d => processDep store ns k d) nodes =
      ds.foldl (fun ns d => processDep store ns k d) nodes := by
  induction ds with
  | nil => intro nodes; rfl
  | cons d ds ih =>
    intro nodes
    rw [List.filter_cons]
    by_cases h : d ≠ k ∧ d ∈ skeys store
    · rw [if_pos (by simpa using h), List.foldl_cons, List.foldl_cons]
      exact ih _
    · rw [if_neg (by simpa using h), List.foldl_cons,
        processDep_self_or_dangling store nodes k d h]
      exact ih nodes

theorem processEntry_scrub (store : Store T) (nodes : Nodes T) (p : T × List T) :
    processEntry (scrub store) nodes
      (p.1, p.2.filter (fun d => decide (d ≠ p.1 ∧ d ∈ skeys store))) =
    processEntry store nodes p := by
  unfold processEntry
  rw [foldl_fn_congr _ _ _
    (fun acc x => processDep_scrub store acc p.1 x)]
  exact foldl_processDep_filter store p.1 p.2 _

theorem makeNodes_scrub (store : Store T) :
    makeNodes (scrub store) = makeNodes store := by
  show List.foldl (processEntry (scrub store)) []
      (store.map (fun p => (p.1, p.2.filter
        (fun d => decide (d ≠ p.1 ∧ d ∈ skeys store))))) =
    List.foldl (processEntry store) [] store
  rw [List.foldl_map]
  apply foldl_fn_congr
  intro acc p
  exact processEntry_scrub store acc p

theorem initState_scrub (store : Store T) :
    initState (scrub store) = initState store := by
  unfold initState
  rw [makeNodes_scrub]

theorem scrub_length (store : Store T) : (scrub store).length = store.length :=
  List.length_map _ _

theorem okNodes_map_ok (l : List T) : okNodes (l.map Except.ok) = l := by
  induction l with
  | nil => rfl
  | cons x l ih => rw [List.map_cons, okNodes_cons_ok, ih]

theorem okNodes_append_error (l : List T) (e : CycleError) :
    okNodes (l.map Except.ok ++ [Except.error e]) = l := by
  induction l with
  | nil => rfl
  | cons x l ih => rw [List.map_cons, List.cons_append, okNodes_cons_ok, ih]

theorem error_iff_hasCycle (store : Store T) (hwf : WF store) :
    Except.error CycleError.mk ∈ toposortList store ↔ HasCycle store := by
  constructor
  · intro herr
    by_contra hacyc
    obtain ⟨l, _, _, _, _, heq⟩ := toposort_acyclic_spec store hwf hacyc
    rw [heq, List.mem_map] at herr
    obtain ⟨x, _, hx⟩ := herr
    exact Except.noConfusion hx
  · intro hcyc
    obtain ⟨l, _, _, _, _, heq⟩ := toposort_cyclic_spec store hwf hcyc
    rw [heq]
    exact List.mem_append_right _ (List.mem_singleton.2 rfl)

theorem strictlyBefore_of_validOrder (store : Store T) (l : List T)
    (hv : validOrder store l) (n : T) (hn : n ∈ l) (d : T)
    (hd : d ∈ cleanDeps store n) : strictlyBefore l d n := by
  obtain ⟨pre, post, heq⟩ := List.append_of_mem hn
  exact ⟨pre, post, heq, hv pre n post heq d hd⟩

theorem innerNext_queue_ok (nodes : Nodes T) (v : T) (rest : List T) :
    (innerNext ⟨nodes, v :: rest⟩).1 = some (Except.ok v) := by
  have hshape : innerNext ⟨nodes, v :: rest⟩ = match alookup nodes v with
    | some e =>
      (some (Except.ok v),
        ({ nodes := (processDependents (aremove nodes v) e.1).1,
           noEdges := (processDependents (aremove nodes v) e.1).2 ++ rest } :
          IterState T))
    | none =>
      (some (Except.ok v),
        ({ nodes := nodes, noEdges := rest } : IterState T)) := rfl
  rw [hshape]
  cases alookup nodes v <;> rfl

theorem exStore_acyclic : ¬ HasCycle exStore := by
  apply acyclic_of_rank exStore
    (fun n => if n = 3 then 4 else if n = 4 then 3 else n)
  intro d n hd
  have hdk := depEdge_source_key exStore hd
  have hnk := depEdge_target_key exStore hd
  have hfin : ∀ d ∈ skeys exStore, ∀ n ∈ skeys exStore, DepEdge exStore d n →
      (if d = 3 then 4 else if d = 4 then 3 else d) <
        (if n = 3 then 4 else if n = 4 then 3 else n) := by decide
  exact hfin d hdk n hnk hd

theorem exCycStore_hasCycle : HasCycle exCycStore := by
  have h12 : DepEdge exCycStore 1 2 := by decide
  have h21 : DepEdge exCycStore 2 1 := by decide
  exact ⟨1, Relation.TransGen.head h12 (Relation.TransGen.single h21)⟩

theorem exDepCycStore_hasCycle : HasCycle exDepCycStore := by
  have h12 : DepEdge exDepCycStore 1 2 := by decide
  have h21 : DepEdge exDepCycStore 2 1 := by decide
  exact ⟨1, Relation.TransGen.head h12 (Relation.TransGen.single h21)⟩

/-- C1, as frozen, is falsified by a self-dependency: in the store mapping
node 0 to the dependency set containing 0 itself, the dependency graph after
dropping self edges is acyclic, the traversal emits 0, and 0 is a dependency
of 0 that is also a key of the store, yet 0 does not appear strictly before
itself in the output order. -/
theorem c1_counterexample :
    ¬ HasCycle exSelfStore ∧
    toposortList exSelfStore = [Except.ok 0] ∧
    (0 : Nat) ∈ storeDeps exSelfStore 0 ∧
    (0 : Nat) ∈ skeys exSelfStore ∧
    ¬ strictlyBefore (okNodes (toposortList exSelfStore)) 0 0 := by
  refine ⟨?_, by decide, by decide, by decide, ?_⟩
  · apply acyclic_of_rank exSelfStore (fun n => n)
    intro d n hd
    have hdk := depEdge_source_key exSelfStore hd
    have hnk := depEdge_target_key exSelfStore hd
    have hfin : ∀ d ∈ skeys exSelfStore, ∀ n ∈ skeys exSelfStore,
        DepEdge exSelfStore d n → d < n := by decide
    exact hfin d hdk n hnk hd
  · rintro ⟨pre, post, heq, hmem⟩
    have hok : okNodes (toposortList exSelfStore) = [0] := by decide
    rw [hok] at heq
    cases pre with
    | nil => exact absurd hmem (List.not_mem_nil 0)
    | cons a pre =>
      injection heq with h1 h2
      exact absurd h2.symm (by simp)

/-- C1 (amended): for every well-formed store whose dependency graph (after
dropping self edges and dangling references) is acyclic, the traversal
output order is such that, for every emitted node N and every dependency D
of N **other than N itself** that is also a key of the store, D appears
strictly before N. -/
theorem c1_topological_validity (store : Store T) (hwf : WF store)
    (hacyc : ¬ HasCycle store) :
    ∀ n ∈ okNodes (toposortList store), ∀ d ∈ storeDeps store n,
      d ≠ n → d ∈ skeys store →
      strictlyBefore (okNodes (toposortList store)) d n := by
  obtain ⟨l, hnd, hvalid, hmem, _, heq⟩ := toposort_acyclic_spec store hwf hacyc
  rw [heq, okNodes_map_ok]
  intro n hn d hd hdn hdk
  exact strictlyBefore_of_validOrder store l hvalid n hn d
    ((mem_cleanDeps_iff store n d).2 ⟨hd, hdn, hdk⟩)

theorem c1_witness :
    WF exStore ∧ ¬ HasCycle exStore ∧
    (∀ n ∈ okNodes (toposortList exStore), ∀ d ∈ storeDeps exStore n,
      d ≠ n → d ∈ skeys exStore →
      strictlyBefore (okNodes (toposortList exStore)) d n) :=
  ⟨by decide, exStore_acyclic,
    c1_topological_validity exStore (by decide) exStore_acyclic⟩

/-- C2: for every well-formed store whose dependency graph (after dropping
self edges and dangling references) is acyclic, the full traversal emits
only successes (no cycle error), and the emitted nodes are exactly the keys
of the store, each exactly once (a permutation of the duplicate-free key
list). -/
theorem c2_completeness (store : Store T) (hwf : WF store)
    (hacyc : ¬ HasCycle store) :
    ∃ l : List T, toposortList store = l.map Except.ok ∧
      l.Perm (skeys store) := by
  obtain ⟨l, hnd, _, hmem, _, heq⟩ := toposort_acyclic_spec store hwf hacyc
  exact ⟨l, heq, (List.perm_ext_iff_of_nodup hnd hwf.1).2 hmem⟩

theorem c2_witness :
    WF exStore ∧ ¬ HasCycle exStore ∧
    ∃ l : List Nat, toposortList exStore = l.map Except.ok ∧
      l.Perm (skeys exStore) :=
  ⟨by decide, exStore_acyclic,
    c2_completeness exStore (by decide) exStore_acyclic⟩

/-- C3, as frozen, is falsified by a node that depends on a cycle without
lying on one: in the store mapping 1 to the set containing 2, 2 to the set
containing 1 and 5 to the set containing 1, the graph has a cycle, node 5
is outside every cycle (no directed cycle passes through 5), yet the full
traversal emits the single cycle error and never emits 5. -/
theorem c3_counterexample :
    HasCycle exDepCycStore ∧
    (5 : Nat) ∈ skeys exDepCycStore ∧
    ¬ Relation.TransGen (DepEdge exDepCycStore) 5 5 ∧
    toposortList exDepCycStore = [Except.error CycleError.mk] ∧
    (5 : Nat) ∉ okNodes (toposortList exDepCycStore) := by
  refine ⟨exDepCycStore_hasCycle, by decide, ?_, by decide, by decide⟩
  intro h
  obtain ⟨c, hc, _⟩ := Relation.TransGen.head'_iff.1 h
  have hck := depEdge_target_key exDepCycStore hc
  have hnone : ∀ c ∈ skeys exDepCycStore, ¬ DepEdge exDepCycStore 5 c := by decide
  exact hnone c hck hc

/-- C3 (amended): for every well-formed store whose dependency graph (after
dropping self edges and dangling references) contains a directed cycle, the
full traversal emits exactly the keys none of whose transitive dependencies
lies on a cycle, each once, in an order valid with respect to the dependency
relation, followed by exactly one cycle signal, and then terminates (any
larger fuel produces the same finite output). -/
theorem c3_cycle_detection (store : Store T) (hwf : WF store)
    (hcyc : HasCycle store) :
    ∃ l : List T,
      toposortList store = l.map Except.ok ++ [Except.error CycleError.mk] ∧
      l.Nodup ∧ validOrder store l ∧
      (∀ n, n ∈ l ↔ (n ∈ skeys store ∧ Safe store n)) ∧
      (∀ fuel, store.length < fuel →
        runInner fuel (initState store) = toposortList store) := by
  obtain ⟨l, hnd, hvalid, hmem, hrun, heq⟩ := toposort_cyclic_spec store hwf hcyc
  refine ⟨l, heq, hnd, hvalid, hmem, ?_⟩
  intro fuel hf
  rw [hrun fuel hf, heq]

theorem c3_witness :
    WF exCycStore ∧ HasCycle exCycStore ∧
    ∃ l : List Nat,
      toposortList exCycStore =
        l.map Except.ok ++ [Except.error CycleError.mk] ∧
      l.Nodup ∧ validOrder exCycStore l ∧
      (∀ n, n ∈ l ↔ (n ∈ skeys exCycStore ∧ Safe exCycStore n)) ∧
      (∀ fuel, exCycStore.length < fuel →
        runInner fuel (initState exCycStore) = toposortList exCycStore) :=
  ⟨by decide, exCycStore_hasCycle,
    c3_cycle_detection exCycStore (by decide) exCycStore_hasCycle⟩

/-- C4: whenever the step function emits the cycle-error result, the
successor state answers every subsequent call with "no more results": its
next step is `none` with the state unchanged, and driving it any number of
further steps yields no item at all (no second error, no late success). -/
theorem c4_terminal_error {s s' : IterState T}
    (h : innerNext s = (some (Except.error CycleError.mk), s')) :
    innerNext s' = (none, s') ∧ ∀ fuel, runInner fuel s' = [] := by
  obtain ⟨nodes, noEdges⟩ := s
  cases noEdges with
  | cons v rest =>
    exfalso
    have h1 := innerNext_queue_ok nodes v rest
    rw [h] at h1
    injection h1 with h1
    exact Except.noConfusion h1
  | nil =>
    by_cases hne : nodes.isEmpty
    · exfalso
      have hshape : innerNext (⟨nodes, []⟩ : IterState T) = (none, ⟨nodes, []⟩) := by
        show (if nodes.isEmpty then
            ((none : Option (Except CycleError T)), (⟨nodes, []⟩ : IterState T))
          else (some (Except.error CycleError.mk), ⟨[], []⟩)) = _
        rw [if_pos hne]
      rw [hshape] at h
      injection h with h1 _
      exact Option.noConfusion h1
    · have hshape : innerNext (⟨nodes, []⟩ : IterState T) =
          (some (Except.error CycleError.mk), ⟨[], []⟩) := by
        show (if nodes.isEmpty then
            ((none : Option (Except CycleError T)), (⟨nodes, []⟩ : IterState T))
          else (some (Except.error CycleError.mk), ⟨[], []⟩)) = _
        rw [if_neg hne]
      rw [hshape] at h
      injection h with _ h2
      rw [← h2]
      exact ⟨innerNext_empty, runInner_empty⟩

theorem c4_witness :
    innerNext (initState [((0 : Nat), [1]), (1, [0])]) =
      (some (Except.error CycleError.mk), (⟨[], []⟩ : IterState Nat)) ∧
    innerNext (⟨[], []⟩ : IterState Nat) = (none, ⟨[], []⟩) ∧
    runInner 5 (⟨[], []⟩ : IterState Nat) = [] := by
  have h : innerNext (initState [((0 : Nat), [1]), (1, [0])]) =
      (some (Except.error CycleError.mk), (⟨[], []⟩ : IterState Nat)) := by decide
  exact ⟨h, (c4_terminal_error h).1, (c4_terminal_error h).2 5⟩

/-- C5: removing self dependencies and dangling dependencies from a store
(`scrub`) leaves every traversal unchanged — the inner iterator started from
the scrubbed store yields, for any fuel, exactly the items of the iterator
started from the original store — and a cycle error appears in the output
exactly when the graph of present, mutually-referencing keys has a directed
cycle (never because of self or dangling entries, which `HasCycle` already
ignores). -/
theorem c5_tolerance (store : Store T) (hwf : WF store) :
    (∀ fuel, runInner fuel (initState (scrub store)) =
      runInner fuel (initState store)) ∧
    toposortList (scrub store) = toposortList store ∧
    (Except.error CycleError.mk ∈ toposortList store ↔ HasCycle store) := by
  have hinit := initState_scrub store
  refine ⟨fun fuel => by rw [hinit], ?_, error_iff_hasCycle store hwf⟩
  unfold toposortList
  rw [hinit, scrub_length]

theorem c5_witness :
    WF exStore ∧
    ((∀ fuel, runInner fuel (initState (scrub exStore)) =
      runInner fuel (initState exStore)) ∧
    toposortList (scrub exStore) = toposortList exStore ∧
    (Except.error CycleError.mk ∈ toposortList exStore ↔ HasCycle exStore)) :=
  ⟨by decide, c5_tolerance exStore (by decide)⟩

/-- C6: for every well-formed store, `try_vec` and `try_owned_vec` return
the cycle error as the failure of the whole operation (no partial output)
exactly when the dependency graph has a cycle, and for an acyclic store they
return one vector that lists all keys exactly once in a topologically valid
order. -/
theorem c6_try_vec (store : Store T) (hwf : WF store) :
    (HasCycle store →
      try_vec store = Except.error CycleError.mk ∧
      try_owned_vec store = Except.error CycleError.mk) ∧
    (¬ HasCycle store →
      ∃ l : List T, try_vec store = Except.ok l ∧
        try_owned_vec store = Except.ok l ∧
        l.Perm (skeys store) ∧ validOrder store l) := by
  have hov : try_owned_vec store = try_vec store := by
    unfold try_owned_vec try_vec
    rw [except_map_id]
  constructor
  · intro hcyc
    obtain ⟨l, _, _, _, _, heq⟩ := toposort_cyclic_spec store hwf hcyc
    have hv : try_vec store = Except.error CycleError.mk := by
      unfold try_vec
      rw [heq]
      exact collectOk_with_error l CycleError.mk
    exact ⟨hv, by rw [hov, hv]⟩
  · intro hacyc
    obtain ⟨l, hnd, hvalid, hmem, _, heq⟩ := toposort_acyclic_spec store hwf hacyc
    have hv : try_vec store = Except.ok l := by
      unfold try_vec
      rw [heq]
      exact collectOk_all_ok l
    exact ⟨l, hv, by rw [hov, hv],
      (List.perm_ext_iff_of_nodup hnd hwf.1).2 hmem, hvalid⟩

theorem c6_witness :
    WF exStore ∧
    ((HasCycle exStore →
      try_vec exStore = Except.error CycleError.mk ∧
      try_owned_vec exStore = Except.error CycleError.mk) ∧
    (¬ HasCycle exStore →
      ∃ l : List Nat, try_vec exStore = Except.ok l ∧
        try_owned_vec exStore = Except.ok l ∧
        l.Perm (skeys exStore) ∧ validOrder exStore l)) :=
  ⟨by decide, c6_try_vec exStore (by decide)⟩

/-- C7: for every well-formed acyclic store, fully driving the consuming
iterator yields each node exactly once (the first components are a
permutation of the keys), each paired with its original stored dependency
set, and afterwards the owned map is empty. -/
theorem c7_consuming_drains (store : Store T) (hwf : WF store)
    (hacyc : ¬ HasCycle store) :
    ∃ ps : List (T × List T),
      (runInto (store.length + 1) (intoIter store)).1 = ps.map Except.ok ∧
      (ps.map Prod.fst).Perm (skeys store) ∧
      (∀ p ∈ ps, alookup store p.1 = some p.2) ∧
      (runInto (store.length + 1) (intoIter store)).2.node_depends = [] := by
  obtain ⟨l, hnd, _, hmem, hrun, _⟩ := toposort_acyclic_spec store hwf hacyc
  have hsub : ∀ n ∈ l, n ∈ akeys store := fun n hn => (hmem n).1 hn
  obtain ⟨h1, h2⟩ := runInto_spec l (store.length + 1) (initState store) store
    (hrun (store.length + 1) (Nat.lt_succ_self _)) hnd hsub
  have hfst : ∀ xs : List T,
      (xs.map (fun n => (n, storeDeps store n))).map Prod.fst = xs := by
    intro xs
    induction xs with
    | nil => rfl
    | cons x xs ih => simp [ih]
  refine ⟨l.map (fun n => (n, storeDeps store n)), ?_, ?_, ?_, ?_⟩
  · show (runInto (store.length + 1) ⟨initState store, store⟩).1 = _
    rw [h1, List.map_map]
    rfl
  · rw [hfst l]
    exact (List.perm_ext_iff_of_nodup hnd hwf.1).2 hmem
  · intro p hp
    rw [List.mem_map] at hp
    obtain ⟨n, hn, rfl⟩ := hp
    have hk : (alookup store n).isSome :=
      (alookup_isSome_iff store n).2 (hsub n hn)
    cases hl : alookup store n with
    | none => rw [hl] at hk; simp at hk
    | some ds =>
      show some ds = some ((n, storeDeps store n).2)
      unfold storeDeps
      rw [hl]
      rfl
  · show (runInto (store.length + 1) ⟨initState store, store⟩).2.node_depends = []
    rw [h2]
    exact foldl_aremove_nil l store (fun k hk => (hmem k).2 hk)

theorem c7_witness :
    WF exStore ∧ ¬ HasCycle exStore ∧
    ∃ ps : List (Nat × List Nat),
      (runInto (exStore.length + 1) (intoIter exStore)).1 = ps.map Except.ok ∧
      (ps.map Prod.fst).Perm (skeys exStore) ∧
      (∀ p ∈ ps, alookup exStore p.1 = some p.2) ∧
      (runInto (exStore.length + 1) (intoIter exStore)).2.node_depends = [] :=
  ⟨by decide, exStore_acyclic,
    c7_consuming_drains exStore (by decide) exStore_acyclic⟩

/-- C8: the borrowed traversal never mutates the store — after any number of
`TopoSortIter::next` steps the store component is the original store, so its
length and every lookup are unchanged — and (fresh traversals being a pure
function of the unchanged store) every fresh borrowed traversal of a
well-formed acyclic store yields a topologically valid order containing
exactly the keys. -/
theorem c8_borrowed_no_mutation (store : Store T) (hwf : WF store) :
    (∀ k, (tsIterate k (topoSortIter store)).node_depends = store) ∧
    (∀ k, (tsIterate k (topoSortIter store)).node_depends.length =
      store.length) ∧
    (∀ k n, alookup (tsIterate k (topoSortIter store)).node_depends n =
      alookup store n) ∧
    (¬ HasCycle store →
      ∃ l : List T, okNodes (toposortList store) = l ∧
        l.Perm (skeys store) ∧ validOrder store l) := by
  have hst : ∀ k, (tsIterate k (topoSortIter store)).node_depends = store :=
    fun k => tsIterate_store k (topoSortIter store)
  refine ⟨hst, fun k => by rw [hst k], fun k n => by rw [hst k], ?_⟩
  intro hacyc
  obtain ⟨l, hnd, hvalid, hmem, _, heq⟩ := toposort_acyclic_spec store hwf hacyc
  exact ⟨l, by rw [heq, okNodes_map_ok],
    (List.perm_ext_iff_of_nodup hnd hwf.1).2 hmem, hvalid⟩

theorem c8_witness :
    WF exStore ∧
    ((∀ k, (tsIterate k (topoSortIter exStore)).node_depends = exStore) ∧
    (∀ k, (tsIterate k (topoSortIter exStore)).node_depends.length =
      exStore.length) ∧
    (∀ k n, alookup (tsIterate k (topoSortIter exStore)).node_depends n =
      alookup exStore n) ∧
    (¬ HasCycle exStore →
      ∃ l : List Nat, okNodes (toposortList exStore) = l ∧
        l.Perm (skeys exStore) ∧ validOrder exStore l)) :=
  ⟨by decide, c8_borrowed_no_mutation exStore (by decide)⟩

/-- C9: at every point of a traversal of a well-formed store — after any
number `k` of steps — the size estimate is the pair `(r, r)` where `r` is
the number of graph nodes not yet emitted or discarded: the key count minus
the successes so far, and `0` once the cycle error has discarded the rest. -/
theorem c9_size_hint (store : Store T) (hwf : WF store) (k : Nat) :
    sizeHint (stateAfter k (initState store)) =
      (if Except.error CycleError.mk ∈ runInner k (initState store) then 0
        else (skeys store).length -
          (okNodes (runInner k (initState store))).length,
       some (if Except.error CycleError.mk ∈ runInner k (initState store) then 0
        else (skeys store).length -
          (okNodes (runInner k (initState store))).length)) := by
  have hlen := size_run store hwf k (initState store) [] (inv_init store hwf)
  have hsl : (skeys store).length = (initState store).nodes.length := by
    rw [initState_nodes_length store hwf]
    simp [skeys]
  unfold sizeHint
  rw [hlen, hsl]

theorem c9_witness :
    WF exStore ∧
    sizeHint (stateAfter 2 (initState exStore)) =
      (if Except.error CycleError.mk ∈ runInner 2 (initState exStore) then 0
        else (skeys exStore).length -
          (okNodes (runInner 2 (initState exStore))).length,
       some (if Except.error CycleError.mk ∈ runInner 2 (initState exStore)
        then 0
        else (skeys exStore).length -
          (okNodes (runInner 2 (initState exStore))).length)) :=
  ⟨by decide, c9_size_hint exStore (by decide) 2⟩

/-- C10: for every well-formed store, cyclic or not, every successfully
emitted node of the full traversal is a key of the store (a dangling
dependency value never appears in the output), and no node is emitted as a
success more than once. -/
theorem c10_unique_keys (store : Store T) (hwf : WF store) :
    (∀ n ∈ okNodes (toposortList store), n ∈ skeys store) ∧
    (okNodes (toposortList store)).Nodup := by
  by_cases hcyc : HasCycle store
  · obtain ⟨l, hnd, _, hmem, _, heq⟩ := toposort_cyclic_spec store hwf hcyc
    rw [heq, okNodes_append_error]
    exact ⟨fun n hn => ((hmem n).1 hn).1, hnd⟩
  · obtain ⟨l, hnd, _, hmem, _, heq⟩ := toposort_acyclic_spec store hwf hcyc
    rw [heq, okNodes_map_ok]
    exact ⟨fun n hn => (hmem n).1 hn, hnd⟩

theorem c10_witness :
    WF exCycStore ∧
    ((∀ n ∈ okNodes (toposortList exCycStore), n ∈ skeys exCycStore) ∧
    (okNodes (toposortList exCycStore)).Nodup) :=
  ⟨by decide, c10_unique_keys exCycStore (by decide)⟩

end TopoSortModel
